import Mathlib

/-!
Shallow embedding of the retrieval-orchestration and incremental-sync core of
the `north` repository (Python), together with proofs settling the frozen
claims about its specification.

Conventions of the embedding:
* Python strings are modelled as `List Char`; slicing `s[a:b]` becomes
  `(s.drop a).take (b - a)`.
* Python `None` becomes `Option.none`; Python truthiness of strings
  (`if s:`) is an explicit emptiness test.
* Relevance scores (Python floats used only through order comparisons)
  are modelled as rationals.
* Wall-clock fields (`indexed_at` timestamps) and backend-assigned UUIDs
  are modelled explicitly where the code depends on them (UUIDs as a
  deterministic counter) and omitted where no claim depends on them.
-/

set_option maxRecDepth 16384

namespace North

/-- Python `str.lower()` restricted to ASCII, as used by the code under
verification (all compared literals are ASCII). -/
def pyLower (s : List Char) : List Char := s.map Char.toLower

/-- Python substring test `needle in hay`. The empty needle is contained in
everything, matching Python. -/
def containsSub (needle hay : List Char) : Bool :=
  needle.isPrefixOf hay ||
    match hay with
    | [] => false
    | _ :: t => containsSub needle t

/-- Python `str.strip()`: remove leading and trailing whitespace. -/
def pyStrip (s : List Char) : List Char :=
  ((s.dropWhile Char.isWhitespace).reverse.dropWhile Char.isWhitespace).reverse

/-- Helper for `pyRfind`: search indices `start + n - 1, …, start` downward
for the character `c`, returning the first (hence largest) hit. -/
def rfindAux (text : List Char) (c : Char) (start : Nat) : Nat → Option Nat
  | 0 => none
  | n + 1 => if text.getD (start + n) ' ' = c then some (start + n) else rfindAux text c start n

/-- Python `text.rfind(c, start, stop)` returning the largest index
`start ≤ i < stop` whose character is `c`, or `none` (Python returns `-1`;
the sole caller compares the result against a bound that `-1` never
exceeds, so `none` and `-1` coincide). -/
def pyRfind (text : List Char) (c : Char) (start stop : Nat) : Option Nat :=
  rfindAux text c start (stop - start)

theorem rfindAux_spec (text : List Char) (c : Char) (start : Nat) :
    ∀ n i, rfindAux text c start n = some i →
      start ≤ i ∧ i < start + n ∧ text.getD i ' ' = c := by
  intro n
  induction n with
  | zero => intro i h; simp [rfindAux] at h
  | succ m ih =>
      intro i h
      unfold rfindAux at h
      by_cases hc : text.getD (start + m) ' ' = c
      · rw [if_pos hc] at h
        obtain rfl : start + m = i := Option.some.inj h
        exact ⟨Nat.le_add_right _ _, by omega, hc⟩
      · rw [if_neg hc] at h
        obtain ⟨h1, h2, h3⟩ := ih i h
        exact ⟨h1, by omega, h3⟩

theorem rfindAux_ge (text : List Char) (c : Char) (start : Nat) :
    ∀ n j, start ≤ j → j < start + n → text.getD j ' ' = c →
      ∃ i, rfindAux text c start n = some i ∧ j ≤ i := by
  intro n
  induction n with
  | zero => intro j h1 h2; omega
  | succ m ih =>
      intro j h1 h2 h3
      by_cases hc : text.getD (start + m) ' ' = c
      · refine ⟨start + m, ?_, by omega⟩
        unfold rfindAux
        rw [if_pos hc]
      · have hj : j < start + m := by
          by_contra hge
          have hje : j = start + m := by omega
          rw [hje] at h3
          exact hc h3
        obtain ⟨i, hi, hji⟩ := ih j h1 hj h3
        refine ⟨i, ?_, hji⟩
        unfold rfindAux
        rw [if_neg hc]
        exact hi

theorem pyRfind_spec (text : List Char) (c : Char) (start stop i : Nat)
    (h : pyRfind text c start stop = some i) :
    start ≤ i ∧ i < stop ∧ text.getD i ' ' = c := by
  obtain ⟨h1, h2, h3⟩ := rfindAux_spec text c start (stop - start) i h
  exact ⟨h1, by omega, h3⟩

theorem pyRfind_ge (text : List Char) (c : Char) (start stop j : Nat)
    (h1 : start ≤ j) (h2 : j < stop) (h3 : text.getD j ' ' = c) :
    ∃ i, pyRfind text c start stop = some i ∧ j ≤ i := by
  exact rfindAux_ge text c start (stop - start) j h1 (by omega) h3

/-! ### `DocumentProcessor.chunk_text`
(`src/agents/dropbox_v2/document_processor.py`, lines 468-502)

The source function is parametric in `chunk_size` and `overlap`; its defaults
and its only call site (`WeaviateIndexer._index_document_chunks`) both use
`chunk_size=1000, overlap=200`, which the claims also fix, so the embedding
bakes those constants in.  `chunk_size // 2 = 500`. -/

/-- One window-end computation of `chunk_text`:
`end = min(start + chunk_size, text_length)`, then snapped back to just after
the last sentence dot when that dot lies strictly past the window midpoint. -/
def chunkWindowEnd (text : List Char) (start : Nat) : Nat :=
  let e := min (start + 1000) text.length
  if e < text.length then
    match pyRfind text '.' start e with
    | some i => if start + 500 < i then i + 1 else e
    | none => e
  else e

theorem chunkWindowEnd_le (text : List Char) (start : Nat) :
    chunkWindowEnd text start ≤ text.length := by
  unfold chunkWindowEnd
  by_cases h : min (start + 1000) text.length < text.length
  · simp only [h, if_true]
    cases hfind : pyRfind text '.' start (min (start + 1000) text.length) with
    | none => exact h.le
    | some i =>
        by_cases hi : start + 500 < i
        · simp only [hi, if_true]
          have := (pyRfind_spec text '.' start _ i hfind).2.1
          omega
        · simp only [hi, if_false]
          exact h.le
  · simp only [h, if_false]
    exact Nat.min_le_right _ _

theorem chunkWindowEnd_lower (text : List Char) (start : Nat)
    (h : chunkWindowEnd text start < text.length) :
    start + 502 ≤ chunkWindowEnd text start := by
  unfold chunkWindowEnd at h ⊢
  by_cases hm : min (start + 1000) text.length < text.length
  · have hmin : min (start + 1000) text.length = start + 1000 := by omega
    simp only [hm, if_true] at h ⊢
    cases hfind : pyRfind text '.' start (min (start + 1000) text.length) with
    | none => simp only [hfind]; omega
    | some i =>
        by_cases hi : start + 500 < i
        · simp only [hfind, hi, if_true]; omega
        · simp only [hfind, hi, if_false]; omega
  · rw [if_neg hm] at h
    exact absurd h hm

/-- The `while start < text_length` loop of `chunk_text`, the next start being
`end - overlap` while the window end falls short of the text, else the loop
ends after the trailing remainder.  Empty (post-strip) chunks are skipped. -/
def chunkTextLoop (text : List Char) (start : Nat) : List (List Char) :=
  if h : start < text.length then
    let e := chunkWindowEnd text start
    let chunk := pyStrip ((text.drop start).take (e - start))
    let rest := if e < text.length then chunkTextLoop text (e - 200) else []
    if chunk = [] then rest else chunk :: rest
  else []
termination_by text.length - start
decreasing_by
  have h1 := chunkWindowEnd_lower text start (by assumption)
  omega

/-- `DocumentProcessor.chunk_text(text, chunk_size=1000, overlap=200)`. -/
def chunk_text (text : List Char) : List (List Char) :=
  chunkTextLoop text 0

theorem chunkTextLoop_eq (text : List Char) (start : Nat) (h : start < text.length) :
    chunkTextLoop text start =
      (if pyStrip ((text.drop start).take (chunkWindowEnd text start - start)) = [] then
        (if chunkWindowEnd text start < text.length then
          chunkTextLoop text (chunkWindowEnd text start - 200) else [])
      else
        pyStrip ((text.drop start).take (chunkWindowEnd text start - start)) ::
        (if chunkWindowEnd text start < text.length then
          chunkTextLoop text (chunkWindowEnd text start - 200) else [])) := by
  rw [chunkTextLoop]
  simp only [h, dif_pos]

theorem chunkTextLoop_eq_nil (text : List Char) (start : Nat) (h : ¬ start < text.length) :
    chunkTextLoop text start = [] := by
  rw [chunkTextLoop]
  simp only [h, dif_neg, not_false_iff]

theorem chunkWindowEnd_terminal (text : List Char) (start : Nat)
    (h : ¬ chunkWindowEnd text start < text.length) :
    chunkWindowEnd text start = text.length ∧ text.length ≤ start + 1000 := by
  have hle := chunkWindowEnd_le text start
  have heq : chunkWindowEnd text start = text.length := by omega
  refine ⟨heq, ?_⟩
  by_cases hm : min (start + 1000) text.length < text.length
  · exfalso
    unfold chunkWindowEnd at heq
    rw [if_pos hm] at heq
    cases hfind : pyRfind text '.' start (min (start + 1000) text.length) with
    | none => rw [hfind] at heq; dsimp only at heq; omega
    | some i =>
        rw [hfind] at heq
        dsimp only at heq
        have hspec := (pyRfind_spec text '.' start _ i hfind).2.1
        by_cases hi : start + 500 < i
        · rw [if_pos hi] at heq; omega
        · rw [if_neg hi] at heq; omega
  · omega

/-- Auxiliary bounded-measure induction: every chunk produced by the loop is
nonempty. -/
theorem chunkTextLoop_ne_nil (text : List Char) :
    ∀ n start, text.length - start ≤ n → ∀ c ∈ chunkTextLoop text start, c ≠ [] := by
  intro n
  induction n with
  | zero =>
      intro start hle c hc
      have h : ¬ start < text.length := by omega
      rw [chunkTextLoop_eq_nil text start h] at hc
      simp at hc
  | succ m ih =>
      intro start hle c hc
      by_cases h : start < text.length
      · rw [chunkTextLoop_eq text start h] at hc
        by_cases he : chunkWindowEnd text start < text.length
        · have h502 := chunkWindowEnd_lower text start he
          have hrec : ∀ c ∈ chunkTextLoop text (chunkWindowEnd text start - 200), c ≠ [] :=
            ih (chunkWindowEnd text start - 200) (by omega)
          by_cases hch : pyStrip ((text.drop start).take (chunkWindowEnd text start - start)) = []
          · rw [if_pos hch, if_pos he] at hc
            exact hrec c hc
          · rw [if_neg hch, if_pos he] at hc
            rcases List.mem_cons.mp hc with rfl | hc2
            · exact hch
            · exact hrec c hc2
        · by_cases hch : pyStrip ((text.drop start).take (chunkWindowEnd text start - start)) = []
          · rw [if_pos hch, if_neg he] at hc
            simp at hc
          · rw [if_neg hch, if_neg he] at hc
            rcases List.mem_cons.mp hc with rfl | hc2
            · exact hch
            · simp at hc2
      · rw [chunkTextLoop_eq_nil text start h] at hc
        simp at hc

/-- Auxiliary bounded-measure induction: the loop always ends with a window
reaching the end of the text; when the remainder strips to something
nonempty, that remainder is the final chunk. -/
theorem chunkTextLoop_getLast (text : List Char) :
    ∀ n start, text.length - start ≤ n → start < text.length →
      ∃ s, start ≤ s ∧ s < text.length ∧ text.length ≤ s + 1000 ∧
        (pyStrip (text.drop s) ≠ [] →
          (chunkTextLoop text start).getLast? = some (pyStrip (text.drop s))) := by
  intro n
  induction n with
  | zero => intro start hle hlt; omega
  | succ m ih =>
      intro start hle hlt
      by_cases he : chunkWindowEnd text start < text.length
      · have h502 := chunkWindowEnd_lower text start he
        obtain ⟨s, hs1, hs2, hs3, hs4⟩ := ih (chunkWindowEnd text start - 200) (by omega) (by omega)
        refine ⟨s, by omega, hs2, hs3, ?_⟩
        intro hne
        have hrest := hs4 hne
        have hrestne : chunkTextLoop text (chunkWindowEnd text start - 200) ≠ [] := by
          intro hnil
          rw [hnil] at hrest
          simp at hrest
        rw [chunkTextLoop_eq text start hlt]
        by_cases hch : pyStrip ((text.drop start).take (chunkWindowEnd text start - start)) = []
        · rw [if_pos hch, if_pos he]
          exact hrest
        · rw [if_neg hch, if_pos he]
          obtain ⟨b, t, hbt⟩ : ∃ b t, chunkTextLoop text (chunkWindowEnd text start - 200) = b :: t := by
            cases hx : chunkTextLoop text (chunkWindowEnd text start - 200) with
            | nil => exact absurd hx hrestne
            | cons b t => exact ⟨b, t, rfl⟩
          rw [hbt]
          rw [hbt] at hrest
          rw [List.getLast?_cons_cons]
          exact hrest
      · obtain ⟨heq, hbound⟩ := chunkWindowEnd_terminal text start he
        refine ⟨start, le_refl _, hlt, by omega, ?_⟩
        intro hne
        have hdrop : (text.drop start).take (chunkWindowEnd text start - start) = text.drop start := by
          rw [heq]
          apply List.take_of_length_le
          simp
        rw [chunkTextLoop_eq text start hlt, hdrop]
        rw [if_neg hne, if_neg he]
        simp

/-- When a sentence dot exists in the back half of a full-size window, the
window end is snapped to just past a dot in the back half (namely the last
dot of the window). -/
theorem chunkWindowEnd_snap (text : List Char) (start : Nat) (hlen : start + 1000 < text.length)
    (j : Nat) (hj1 : start + 500 < j) (hj2 : j < start + 1000) (hj3 : text.getD j ' ' = '.') :
    ∃ i, start + 500 < i ∧ text.getD i ' ' = '.' ∧ chunkWindowEnd text start = i + 1 := by
  have hmin : min (start + 1000) text.length = start + 1000 := by omega
  obtain ⟨i, hfind, hji⟩ := pyRfind_ge text '.' start (start + 1000) j (by omega) hj2 hj3
  have hspec := pyRfind_spec text '.' start (start + 1000) i hfind
  refine ⟨i, by omega, hspec.2.2, ?_⟩
  unfold chunkWindowEnd
  simp only [hmin]
  rw [if_pos (show start + 1000 < text.length by omega)]
  rw [hfind]
  dsimp only
  rw [if_pos (show start + 500 < i by omega)]


/-! ### `DocumentProcessor.process_document`
(`src/agents/dropbox_v2/document_processor.py`, lines 42-119)

The per-format byte extraction (`_extract_pdf_text` and friends) is a
collaborator boundary; `process_document` is modelled from the point where
the extracted text is in hand.  The path/content metadata heuristics
(`_extract_metadata_from_path`, `_extract_metadata_from_content`,
`_infer_document_type`) are deterministic string scans that no claim
depends on; their joint output is abstracted as an `ExtractedMeta` input.
Date and count fields (`file_size`, `indexed_at`, `text_length`,
`word_count`) are omitted: no claim mentions them. -/

/-- Output of the metadata heuristics of `process_document`. -/
structure ExtractedMeta where
  project_name : Option String := none
  contractor : Option String := none
  document_type : Option String := none
  vendor_name : Option String := none
deriving DecidableEq, Repr

/-- Dropbox file metadata fields read by the sync and processing code
(`DropboxClient._entry_to_dict`). -/
structure FileMeta where
  id : String := ""
  name : String := ""
  path_display : String := ""
  ftype : String := "file"
deriving DecidableEq, Repr

/-- The document dictionary built by `process_document` and consumed by
`WeaviateIndexer.index_document`. -/
structure IndexDoc where
  id : Option String := none
  name : Option String := none
  file_path : String := ""
  content : List Char := []
  full_text : Option (List Char) := none
  project_name : Option String := none
  contractor : Option String := none
  document_type : Option String := none
  vendor_name : Option String := none
deriving DecidableEq, Repr

/-- `DocumentProcessor.process_document`, from the point where `text` holds
the extracted text of the file: `None` when no text was extracted, else the
document dictionary with `content = text[:50000]` and `full_text = text`. -/
def process_document (em : ExtractedMeta) (text : List Char) (meta : FileMeta) :
    Option IndexDoc :=
  if text = [] then none
  else some
    { id := if meta.id = "" then none else some meta.id
      name := if meta.name = "" then none else some meta.name
      file_path := meta.path_display
      content := text.take 50000
      full_text := some text
      project_name := em.project_name
      contractor := em.contractor
      document_type := em.document_type
      vendor_name := em.vendor_name }

/-- Source of the chunk derivation in `WeaviateIndexer._index_document_chunks`:
`document.get('full_text') or document.get('content', '')` — the full text
when present and truthy (nonempty), else the stored content. -/
def chunk_source (d : IndexDoc) : List Char :=
  match d.full_text with
  | some t => if t = [] then d.content else t
  | none => d.content

/-- C10: for every successfully processed source file, the stored `content`
is the first 50000 characters of the extracted text while chunk derivation
reads the full text; beyond 50000 characters the stored content is a strict
prefix of the text the chunks cover. -/
theorem C10_content_truncated_chunks_full (em : ExtractedMeta) (text : List Char)
    (meta : FileMeta) (d : IndexDoc) (hproc : process_document em text meta = some d)
    (hlong : 50000 < text.length) :
    d.content = text.take 50000 ∧ chunk_source d = text ∧
      ∃ rest, rest ≠ [] ∧ d.content ++ rest = text := by
  have htext : text ≠ [] := by
    intro h
    rw [h] at hlong
    simp at hlong
  unfold process_document at hproc
  rw [if_neg htext] at hproc
  obtain rfl : _ = d := Option.some.inj hproc
  refine ⟨rfl, ?_, text.drop 50000, ?_, ?_⟩
  · simp only [chunk_source]
    rw [if_neg htext]
  · intro h
    have := congrArg List.length h
    simp at this
    omega
  · exact List.take_append_drop _ _

/-- Concrete input for the C10 witness: 50001 identical characters. -/
def c10Text : List Char := List.replicate 50001 'a'

/-- Concrete output document for the C10 witness. -/
def c10Doc : IndexDoc :=
  { id := none
    name := none
    file_path := ""
    content := c10Text.take 50000
    full_text := some c10Text
    project_name := none
    contractor := none
    document_type := none
    vendor_name := none }

theorem c10Text_length : c10Text.length = 50001 := by
  unfold c10Text
  exact List.length_replicate _ _

theorem C10_witness :
    process_document {} c10Text {} = some c10Doc ∧ 50000 < c10Text.length ∧
      (c10Doc.content = c10Text.take 50000 ∧ chunk_source c10Doc = c10Text ∧
        ∃ rest, rest ≠ [] ∧ c10Doc.content ++ rest = c10Text) := by
  have hne : c10Text ≠ [] := by
    intro h
    have := c10Text_length
    rw [h] at this
    simp at this
  have h1 : process_document {} c10Text {} = some c10Doc := by
    unfold process_document
    rw [if_neg hne]
    rfl
  have h2 : 50000 < c10Text.length := by
    rw [c10Text_length]
    omega
  exact ⟨h1, h2, C10_content_truncated_chunks_full {} c10Text {} c10Doc h1 h2⟩

/-- C9: on every input text (with the fixed parameters chunk size 1000 and
overlap 200) the chunking function — a total, hence terminating and
deterministic, Lean function defined by well-founded recursion on the
remaining length — produces a finite list of nonempty chunks; its last
processed window reaches the end of the text and the stripped trailing
remainder, when nonempty, is the final chunk; and every full-size window
with a sentence dot in its back half is shortened to end just past a dot
in the back half. -/
theorem C9_chunk_text_spec (text : List Char) :
    (∀ c ∈ chunk_text text, c ≠ []) ∧
    (text ≠ [] →
      ∃ s, s < text.length ∧ text.length ≤ s + 1000 ∧
        (pyStrip (text.drop s) ≠ [] →
          (chunk_text text).getLast? = some (pyStrip (text.drop s)))) ∧
    (∀ start j, start + 1000 < text.length → start + 500 < j → j < start + 1000 →
      text.getD j ' ' = '.' →
      ∃ i, start + 500 < i ∧ text.getD i ' ' = '.' ∧ chunkWindowEnd text start = i + 1) := by
  refine ⟨fun c hc => chunkTextLoop_ne_nil text text.length 0 (by omega) c hc, ?_, ?_⟩
  · intro hne
    have hlen : 0 < text.length := List.length_pos.mpr hne
    obtain ⟨s, _, h2, h3, h4⟩ := chunkTextLoop_getLast text text.length 0 (by omega) hlen
    exact ⟨s, h2, h3, h4⟩
  · intro start j h1 h2 h3 h4
    exact chunkWindowEnd_snap text start h1 j h2 h3 h4

/-- Concrete input for the C9 witness: 600 letters, a dot in the back half of
the first window, then 900 more letters. -/
def c9Text : List Char := List.replicate 600 'a' ++ '.' :: List.replicate 900 'b'

theorem c9Text_length : c9Text.length = 1501 := by
  unfold c9Text
  simp

theorem c9Text_ne_nil : c9Text ≠ [] := by
  intro h
  have := c9Text_length
  rw [h] at this
  simp at this

theorem c9Text_getD_600 : c9Text.getD 600 ' ' = '.' := by
  unfold c9Text
  rw [List.getD_eq_getElem?_getD, List.getElem?_append_right (by simp)]
  simp

theorem C9_witness :
    (c9Text ≠ [] ∧ 0 + 1000 < c9Text.length ∧ 0 + 500 < 600 ∧ 600 < 0 + 1000 ∧
      c9Text.getD 600 ' ' = '.') ∧
    (∃ s, s < c9Text.length ∧ c9Text.length ≤ s + 1000 ∧
      (pyStrip (c9Text.drop s) ≠ [] →
        (chunk_text c9Text).getLast? = some (pyStrip (c9Text.drop s)))) ∧
    (∃ i, 0 + 500 < i ∧ c9Text.getD i ' ' = '.' ∧ chunkWindowEnd c9Text 0 = i + 1) := by
  have hlen : c9Text.length = 1501 := c9Text_length
  refine ⟨⟨c9Text_ne_nil, by omega, by omega, by omega, c9Text_getD_600⟩, ?_, ?_⟩
  · exact (C9_chunk_text_spec c9Text).2.1 c9Text_ne_nil
  · exact (C9_chunk_text_spec c9Text).2.2 0 600 (by omega) (by omega) (by omega) c9Text_getD_600


/-! ### `WeaviateIndexer`
(`src/agents/dropbox_v2/weaviate_indexer.py`)

The Weaviate backend is modelled as an explicit state: a list of `Document`
records and a list of `DocumentChunk` records, each carrying a backend id
(UUID).  Backend UUIDs are determinized as a counter `nextUuid`; list order
models the backend enumeration order of `fetch_objects` (insertion order).
Backend writes succeed (the tenacity retry wrappers only matter for the
failure paths, which no claim under this component exercises).  `sha256` is
modelled as an injective, never-empty encoding of the hashed content: the
code uses the digest only through equality, assuming no collisions. -/

/-- `hashlib.sha256(content).hexdigest()`, modelled injectively. -/
def sha256_hexdigest (content : List Char) : List Char := 'h' :: content

/-- Properties stored on a `Document` collection record, as produced by
`WeaviateIndexer._prepare_document_for_weaviate` (date, size and count
fields omitted: no claim mentions them). -/
structure WeaviateDoc where
  dropbox_id : Option String
  name : Option String
  file_path : String
  content : List Char
  project_name : Option String
  contractor : Option String
  document_type : Option String
  vendor_name : Option String
  content_hash : List Char
deriving DecidableEq, Repr

/-- Properties stored on a `DocumentChunk` collection record, as built in
`WeaviateIndexer._index_document_chunks` (the `indexed_at` wall-clock field
omitted). -/
structure ChunkProps where
  parent_dropbox_id : Option String
  parent_name : Option String
  file_path : String
  chunk_index : Nat
  total_chunks : Nat
  content : List Char
  chunk_size : Nat
  project_name : Option String
  contractor : Option String
  vendor_name : Option String
  document_type : Option String
deriving DecidableEq, Repr

/-- A `Document` record with its backend UUID. -/
structure DocRecord where
  uuid : Nat
  props : WeaviateDoc
deriving DecidableEq, Repr

/-- A `DocumentChunk` record with its backend UUID. -/
structure ChunkRecord where
  uuid : Nat
  props : ChunkProps
deriving DecidableEq, Repr

/-- The two collections of the index plus the UUID counter. -/
structure WIndex where
  docs : List DocRecord
  chunks : List ChunkRecord
  nextUuid : Nat
deriving DecidableEq, Repr

def emptyIndex : WIndex := ⟨[], [], 0⟩

/-- `WeaviateIndexer._prepare_document_for_weaviate` (claim-relevant fields;
`index_document` has already stored the content hash on the dict). -/
def prepare_document_for_weaviate (d : IndexDoc) (h : List Char) : WeaviateDoc :=
  { dropbox_id := d.id
    name := d.name
    file_path := d.file_path
    content := d.content
    project_name := d.project_name
    contractor := d.contractor
    document_type := d.document_type
    vendor_name := d.vendor_name
    content_hash := h }

/-- Hash-fallback half of `WeaviateIndexer._find_existing_document`:
`fetch_objects(filters=content_hash == h, limit=1)`. -/
def find_by_hash (s : WIndex) (h : List Char) : Option Nat :=
  ((s.docs.filter (fun r => decide (r.props.content_hash = h))).head?).map (fun r => r.uuid)

/-- `WeaviateIndexer._find_existing_document`: look up by `dropbox_id` when
truthy, falling back to the content hash. Returns the backend UUID of the
match. -/
def find_existing_document (s : WIndex) (did : Option String) (h : List Char) : Option Nat :=
  match did with
  | none => find_by_hash s h
  | some i =>
      if i = "" then find_by_hash s h
      else
        match (s.docs.filter (fun r => decide (r.props.dropbox_id = some i))).head? with
        | some r => some r.uuid
        | none => find_by_hash s h

/-- `WeaviateIndexer._delete_document_chunks`: fetch at most 1000 chunks whose
`parent_dropbox_id` equals the given id and delete each fetched record by its
UUID. A `None` id matches no record. -/
def delete_document_chunks (s : WIndex) (did : Option String) : WIndex :=
  match did with
  | none => s
  | some i =>
      { s with chunks :=
          s.chunks.filter (fun c => decide (c.uuid ∉
            (((s.chunks.filter (fun c2 => decide (c2.props.parent_dropbox_id = some i))).take
              1000).map (fun v => v.uuid)))) }

/-- Chunk record properties for chunk number `k` of a document. -/
def mkChunkProps (d : IndexDoc) (k total : Nat) (c : List Char) : ChunkProps :=
  { parent_dropbox_id := d.id
    parent_name := d.name
    file_path := d.file_path
    chunk_index := k
    total_chunks := total
    content := c
    chunk_size := c.length
    project_name := d.project_name
    contractor := d.contractor
    vendor_name := d.vendor_name
    document_type := d.document_type }

/-- The `for idx, chunk in enumerate(chunks)` insertion loop of
`_index_document_chunks`: each insert receives the next backend UUID. -/
def chunkRecordsFrom (d : IndexDoc) (total : Nat) : Nat → Nat → List (List Char) → List ChunkRecord
  | _, _, [] => []
  | base, k, c :: rest => ⟨base, mkChunkProps d k total c⟩ :: chunkRecordsFrom d total (base + 1) (k + 1) rest

/-- `WeaviateIndexer._index_document_chunks`: chunk `full_text or content`
with size 1000 and overlap 200 and insert one record per chunk (no-op when
there are no chunks). -/
def index_document_chunks (s : WIndex) (d : IndexDoc) : WIndex :=
  let cs := chunk_text (chunk_source d)
  if cs = [] then s
  else
    { s with chunks := s.chunks ++ chunkRecordsFrom d cs.length s.nextUuid 0 cs
             nextUuid := s.nextUuid + cs.length }

/-- The chunk records inserted by `index_document` for document `d` when the
first free UUID is `base` (empty when the 500-character chunking threshold is
not exceeded). -/
def insertedChunks (base : Nat) (d : IndexDoc) : List ChunkRecord :=
  if 500 < d.content.length then
    chunkRecordsFrom d (chunk_text (chunk_source d)).length base 0 (chunk_text (chunk_source d))
  else []

/-- `WeaviateIndexer.index_document(document, enable_chunking=True)`:
hash the stored content, look up an existing record by id then hash, delete
(up to 1000 of) the existing chunks of this document id when updating,
update-or-insert the `Document` record, and re-chunk when the content
exceeds 500 characters. -/
def index_document (s : WIndex) (d : IndexDoc) : WIndex :=
  let h := sha256_hexdigest d.content
  let existing := find_existing_document s d.id h
  let s1 := if existing.isSome then delete_document_chunks s d.id else s
  let wdoc := prepare_document_for_weaviate d h
  let s2 :=
    match existing with
    | some u =>
        { s1 with docs := s1.docs.map (fun r => if r.uuid = u then ⟨r.uuid, wdoc⟩ else r) }
    | none =>
        { s1 with docs := s1.docs ++ [⟨s1.nextUuid, wdoc⟩], nextUuid := s1.nextUuid + 1 }
  if 500 < d.content.length then index_document_chunks s2 d else s2

/-- `WeaviateIndexer.delete_document`: delete the chunks, then the record
found by id (with an empty content hash, which matches nothing). -/
def delete_document (s : WIndex) (did : String) : WIndex :=
  let s1 := delete_document_chunks s (some did)
  match find_existing_document s1 (some did) [] with
  | none => s1
  | some u => { s1 with docs := s1.docs.filter (fun r => decide (r.uuid ≠ u)) }

/-- `WeaviateIndexer.document_exists`. -/
def document_exists (s : WIndex) (did : String) : Bool :=
  (find_existing_document s (some did) []).isSome

/-- The chunk records of the index whose parent id is `i`. -/
def chunksOfParent (s : WIndex) (i : String) : List ChunkRecord :=
  s.chunks.filter (fun c => decide (c.props.parent_dropbox_id = some i))

/-- The chunk collection contents without backend UUIDs. -/
def chunkPropsOf (s : WIndex) : List ChunkProps := s.chunks.map (fun c => c.props)


theorem chunkRecordsFrom_length (d : IndexDoc) (total : Nat) :
    ∀ base k cs, (chunkRecordsFrom d total base k cs).length = cs.length := by
  intro base k cs
  induction cs generalizing base k with
  | nil => rfl
  | cons c rest ih => simp [chunkRecordsFrom, ih]

theorem chunkRecordsFrom_map_props (d : IndexDoc) (total : Nat) :
    ∀ base base2 k cs, (chunkRecordsFrom d total base k cs).map (fun c => c.props) =
      (chunkRecordsFrom d total base2 k cs).map (fun c => c.props) := by
  intro base base2 k cs
  induction cs generalizing base base2 k with
  | nil => rfl
  | cons c rest ih => simp [chunkRecordsFrom, ih base.succ base2.succ]

theorem chunkRecordsFrom_parent (d : IndexDoc) (total : Nat) :
    ∀ base k cs r, r ∈ chunkRecordsFrom d total base k cs →
      r.props.parent_dropbox_id = d.id := by
  intro base k cs
  induction cs generalizing base k with
  | nil => intro r hr; simp [chunkRecordsFrom] at hr
  | cons c rest ih =>
      intro r hr
      rcases List.mem_cons.mp hr with rfl | hr2
      · rfl
      · exact ih (base + 1) (k + 1) r hr2

theorem chunkRecordsFrom_uuid_bound (d : IndexDoc) (total : Nat) :
    ∀ base k cs r, r ∈ chunkRecordsFrom d total base k cs →
      base ≤ r.uuid ∧ r.uuid < base + cs.length := by
  intro base k cs
  induction cs generalizing base k with
  | nil => intro r hr; simp [chunkRecordsFrom] at hr
  | cons c rest ih =>
      intro r hr
      rcases List.mem_cons.mp hr with rfl | hr2
      · simp
      · have := ih (base + 1) (k + 1) r hr2
        simp only [List.length_cons]
        omega

theorem chunkRecordsFrom_uuid_nodup (d : IndexDoc) (total : Nat) :
    ∀ base k cs, ((chunkRecordsFrom d total base k cs).map (fun c => c.uuid)).Nodup := by
  intro base k cs
  induction cs generalizing base k with
  | nil => simp [chunkRecordsFrom]
  | cons c rest ih =>
      simp only [chunkRecordsFrom, List.map_cons, List.nodup_cons]
      refine ⟨?_, ih (base + 1) (k + 1)⟩
      intro hmem
      obtain ⟨r, hr, hu⟩ := List.mem_map.mp hmem
      have := (chunkRecordsFrom_uuid_bound d total (base + 1) (k + 1) rest r hr).1
      omega

theorem insertedChunks_length (base : Nat) (d : IndexDoc) :
    (insertedChunks base d).length =
      (if 500 < d.content.length then (chunk_text (chunk_source d)).length else 0) := by
  unfold insertedChunks
  by_cases hc : 500 < d.content.length
  · rw [if_pos hc, if_pos hc, chunkRecordsFrom_length]
  · rw [if_neg hc, if_neg hc]
    rfl

theorem insertedChunks_map_props (base base2 : Nat) (d : IndexDoc) :
    (insertedChunks base d).map (fun c => c.props) =
      (insertedChunks base2 d).map (fun c => c.props) := by
  unfold insertedChunks
  by_cases hc : 500 < d.content.length
  · rw [if_pos hc, if_pos hc]
    exact chunkRecordsFrom_map_props d _ base base2 0 _
  · rw [if_neg hc, if_neg hc]

theorem insertedChunks_parent (base : Nat) (d : IndexDoc) (r : ChunkRecord)
    (hr : r ∈ insertedChunks base d) : r.props.parent_dropbox_id = d.id := by
  unfold insertedChunks at hr
  by_cases hc : 500 < d.content.length
  · rw [if_pos hc] at hr
    exact chunkRecordsFrom_parent d _ base 0 _ r hr
  · rw [if_neg hc] at hr
    simp at hr

theorem insertedChunks_uuid_bound (base : Nat) (d : IndexDoc) (r : ChunkRecord)
    (hr : r ∈ insertedChunks base d) :
    base ≤ r.uuid ∧ r.uuid < base + (insertedChunks base d).length := by
  unfold insertedChunks at hr ⊢
  by_cases hc : 500 < d.content.length
  · rw [if_pos hc] at hr ⊢
    rw [chunkRecordsFrom_length]
    exact chunkRecordsFrom_uuid_bound d _ base 0 _ r hr
  · rw [if_neg hc] at hr
    simp at hr

theorem insertedChunks_uuid_nodup (base : Nat) (d : IndexDoc) :
    ((insertedChunks base d).map (fun c => c.uuid)).Nodup := by
  unfold insertedChunks
  by_cases hc : 500 < d.content.length
  · rw [if_pos hc]
    exact chunkRecordsFrom_uuid_nodup d _ base 0 _
  · rw [if_neg hc]
    simp

/-- Shape of `index_document` when no existing record is found: append the
new `Document` record and the chunk records. -/
theorem index_document_fresh (s : WIndex) (d : IndexDoc)
    (hfind : find_existing_document s d.id (sha256_hexdigest d.content) = none) :
    index_document s d =
      { docs := s.docs ++
          [⟨s.nextUuid, prepare_document_for_weaviate d (sha256_hexdigest d.content)⟩]
        chunks := s.chunks ++ insertedChunks (s.nextUuid + 1) d
        nextUuid := s.nextUuid + 1 + (insertedChunks (s.nextUuid + 1) d).length } := by
  unfold index_document
  simp only [hfind, Option.isSome_none, Bool.false_eq_true, if_false]
  by_cases hc : 500 < d.content.length
  · rw [if_pos hc]
    unfold index_document_chunks
    by_cases hcs : chunk_text (chunk_source d) = []
    · rw [if_pos hcs]
      have hlen : (insertedChunks (s.nextUuid + 1) d).length = 0 := by
        rw [insertedChunks_length, if_pos hc, hcs]
        rfl
      have hnil : insertedChunks (s.nextUuid + 1) d = [] := List.length_eq_zero.mp hlen
      rw [hnil]
      simp
    · rw [if_neg hcs]
      have hins : insertedChunks (s.nextUuid + 1) d =
          chunkRecordsFrom d (chunk_text (chunk_source d)).length (s.nextUuid + 1) 0
            (chunk_text (chunk_source d)) := by
        unfold insertedChunks
        rw [if_pos hc]
      rw [hins, chunkRecordsFrom_length]
  · rw [if_neg hc]
    have hnil : insertedChunks (s.nextUuid + 1) d = [] := by
      unfold insertedChunks
      rw [if_neg hc]
    rw [hnil]
    simp

/-- Shape of `index_document` when the lookup finds record `u`: delete (up to
1000 of) the chunks of this document id, update record `u` in place, then
append the re-derived chunk records. -/
theorem index_document_update (s : WIndex) (d : IndexDoc) (u : Nat)
    (hfind : find_existing_document s d.id (sha256_hexdigest d.content) = some u) :
    index_document s d =
      { docs := s.docs.map (fun r => if r.uuid = u then
          ⟨r.uuid, prepare_document_for_weaviate d (sha256_hexdigest d.content)⟩ else r)
        chunks := (delete_document_chunks s d.id).chunks ++ insertedChunks s.nextUuid d
        nextUuid := s.nextUuid + (insertedChunks s.nextUuid d).length } := by
  unfold index_document
  simp only [hfind, Option.isSome_some, if_true]
  have hdocs : (delete_document_chunks s d.id).docs = s.docs := by
    unfold delete_document_chunks
    cases d.id <;> rfl
  have hnext : (delete_document_chunks s d.id).nextUuid = s.nextUuid := by
    unfold delete_document_chunks
    cases d.id <;> rfl
  by_cases hc : 500 < d.content.length
  · rw [if_pos hc]
    unfold index_document_chunks
    by_cases hcs : chunk_text (chunk_source d) = []
    · rw [if_pos hcs]
      have hlen : (insertedChunks s.nextUuid d).length = 0 := by
        rw [insertedChunks_length, if_pos hc, hcs]
        rfl
      have hnil : insertedChunks s.nextUuid d = [] := List.length_eq_zero.mp hlen
      rw [hnil, hdocs, hnext]
      simp
    · rw [if_neg hcs]
      have hins : insertedChunks s.nextUuid d =
          chunkRecordsFrom d (chunk_text (chunk_source d)).length s.nextUuid 0
            (chunk_text (chunk_source d)) := by
        unfold insertedChunks
        rw [if_pos hc]
      rw [hdocs, hnext, hins, chunkRecordsFrom_length]
  · rw [if_neg hc]
    have hnil : insertedChunks s.nextUuid d = [] := by
      unfold insertedChunks
      rw [if_neg hc]
    rw [hnil, hdocs, hnext]
    simp


theorem find_existing_none_filters (s : WIndex) (i : String) (hine : i ≠ "") (h : List Char)
    (hf : find_existing_document s (some i) h = none) :
    s.docs.filter (fun r => decide (r.props.dropbox_id = some i)) = [] ∧
    s.docs.filter (fun r => decide (r.props.content_hash = h)) = [] := by
  unfold find_existing_document at hf
  dsimp only at hf
  rw [if_neg hine] at hf
  cases hh : (s.docs.filter (fun r => decide (r.props.dropbox_id = some i))).head? with
  | some r =>
      rw [hh] at hf
      exact absurd hf (by simp)
  | none =>
      rw [hh] at hf
      unfold find_by_hash at hf
      refine ⟨List.head?_eq_none_iff.mp hh, List.head?_eq_none_iff.mp ?_⟩
      exact Option.map_eq_none.mp hf

theorem find_existing_append_self (s : WIndex) (s0docs : List DocRecord) (u : Nat)
    (w : WeaviateDoc) (hdocs : s.docs = s0docs ++ [⟨u, w⟩]) (i : String) (hine : i ≠ "")
    (hw : w.dropbox_id = some i)
    (hnone : s0docs.filter (fun r => decide (r.props.dropbox_id = some i)) = [])
    (h : List Char) :
    find_existing_document s (some i) h = some u := by
  unfold find_existing_document
  dsimp only
  rw [if_neg hine, hdocs, List.filter_append, hnone]
  simp [hw]

theorem find_existing_append_by_hash (s : WIndex) (s0docs : List DocRecord) (u : Nat)
    (w : WeaviateDoc) (hdocs : s.docs = s0docs ++ [⟨u, w⟩]) (i2 : String) (hine : i2 ≠ "")
    (hwid : w.dropbox_id ≠ some i2)
    (hid2none : s0docs.filter (fun r => decide (r.props.dropbox_id = some i2)) = [])
    (h : List Char) (hwh : w.content_hash = h)
    (hhnone : s0docs.filter (fun r => decide (r.props.content_hash = h)) = []) :
    find_existing_document s (some i2) h = some u := by
  unfold find_existing_document
  dsimp only
  rw [if_neg hine, hdocs, List.filter_append, hid2none]
  have hfil : [DocRecord.mk u w].filter (fun r => decide (r.props.dropbox_id = some i2)) = [] := by
    simp [hwid]
  rw [List.nil_append, hfil]
  unfold find_by_hash
  rw [hdocs, List.filter_append, hhnone]
  simp [hwh]

theorem delete_chunks_removes_all (s : WIndex) (i : String)
    (hcount : (chunksOfParent s i).length ≤ 1000) :
    chunksOfParent (delete_document_chunks s (some i)) i = [] := by
  unfold chunksOfParent at hcount ⊢
  unfold delete_document_chunks
  rw [List.filter_eq_nil_iff]
  intro c hc
  simp only [decide_eq_true_eq]
  intro hpar
  have hmem := List.mem_filter.mp hc
  have hcmem : c ∈ s.chunks := hmem.1
  have hcond := hmem.2
  have hvict : (s.chunks.filter
      (fun c2 => decide (c2.props.parent_dropbox_id = some i))).take 1000 =
      s.chunks.filter (fun c2 => decide (c2.props.parent_dropbox_id = some i)) :=
    List.take_of_length_le hcount
  have hcin : c ∈ s.chunks.filter (fun c2 => decide (c2.props.parent_dropbox_id = some i)) :=
    List.mem_filter.mpr ⟨hcmem, by simp [hpar]⟩
  rw [hvict] at hcond
  simp only [decide_eq_true_eq] at hcond
  exact hcond (List.mem_map_of_mem _ hcin)

theorem delete_chunks_exact (s : WIndex) (i : String) (other mine : List ChunkRecord)
    (hsplit : s.chunks = other ++ mine)
    (hother : ∀ c ∈ other, c.props.parent_dropbox_id ≠ some i)
    (hmine : ∀ c ∈ mine, c.props.parent_dropbox_id = some i)
    (hlen : mine.length ≤ 1000)
    (hdisj : ∀ c ∈ other, ∀ m ∈ mine, c.uuid ≠ m.uuid) :
    (delete_document_chunks s (some i)).chunks = other := by
  unfold delete_document_chunks
  have hmatch : s.chunks.filter (fun c2 => decide (c2.props.parent_dropbox_id = some i)) = mine := by
    rw [hsplit, List.filter_append]
    have h1 : other.filter (fun c2 => decide (c2.props.parent_dropbox_id = some i)) = [] := by
      rw [List.filter_eq_nil_iff]
      intro c hc
      simp only [decide_eq_true_eq]
      exact hother c hc
    have h2 : mine.filter (fun c2 => decide (c2.props.parent_dropbox_id = some i)) = mine := by
      rw [List.filter_eq_self]
      intro c hc
      simp [hmine c hc]
    rw [h1, h2, List.nil_append]
  dsimp only
  rw [hmatch, List.take_of_length_le hlen, hsplit, List.filter_append]
  have h3 : other.filter (fun c => decide (c.uuid ∉ mine.map (fun v => v.uuid))) = other := by
    rw [List.filter_eq_self]
    intro c hc
    simp only [decide_eq_true_eq]
    intro hmem
    obtain ⟨m, hm, hu⟩ := List.mem_map.mp hmem
    exact hdisj c hc m hm hu.symm
  have h4 : mine.filter (fun c => decide (c.uuid ∉ mine.map (fun v => v.uuid))) = [] := by
    rw [List.filter_eq_nil_iff]
    intro c hc
    simp only [decide_eq_true_eq, not_not]
    exact List.mem_map_of_mem _ hc
  rw [h3, h4, List.append_nil]

theorem filter_uuid_not_take (l : List ChunkRecord)
    (hnd : (l.map (fun c => c.uuid)).Nodup) :
    l.filter (fun c => decide (c.uuid ∉ ((l.take 1000).map (fun v => v.uuid)))) =
      l.drop 1000 := by
  have hdisj : List.Disjoint ((l.map (fun c => c.uuid)).take 1000)
      ((l.map (fun c => c.uuid)).drop 1000) :=
    List.disjoint_take_drop hnd (le_refl _)
  set p := fun c : ChunkRecord => decide (c.uuid ∉ ((l.take 1000).map (fun v => v.uuid)))
    with hp
  have hsplit : l.filter p = (l.take 1000).filter p ++ (l.drop 1000).filter p := by
    conv_lhs => rw [← List.take_append_drop 1000 l]
    rw [List.filter_append]
  have h1 : (l.take 1000).filter p = [] := by
    rw [List.filter_eq_nil_iff]
    intro c hc
    rw [hp]
    simp only [decide_eq_true_eq, not_not]
    exact List.mem_map_of_mem _ hc
  have h2 : (l.drop 1000).filter p = l.drop 1000 := by
    rw [List.filter_eq_self]
    intro c hc
    rw [hp]
    simp only [decide_eq_true_eq]
    intro hmem
    rw [List.map_take] at hmem
    have hcd : c.uuid ∈ (l.map (fun c => c.uuid)).drop 1000 := by
      rw [← List.map_drop]
      exact List.mem_map_of_mem _ hc
    exact hdisj hmem hcd
  rw [hsplit, h1, h2, List.nil_append]

theorem delete_chunks_all_match (s : WIndex) (i : String)
    (hall : ∀ c ∈ s.chunks, c.props.parent_dropbox_id = some i)
    (hnd : (s.chunks.map (fun c => c.uuid)).Nodup) :
    (delete_document_chunks s (some i)).chunks = s.chunks.drop 1000 := by
  unfold delete_document_chunks
  have hmatch : s.chunks.filter (fun c2 => decide (c2.props.parent_dropbox_id = some i)) =
      s.chunks := by
    rw [List.filter_eq_self]
    intro c hc
    simp [hall c hc]
  dsimp only
  rw [hmatch]
  exact filter_uuid_not_take s.chunks hnd


/-! ### Chunk counts on uniform text

For the counterexamples below we need the chunk count of a long dot-free,
whitespace-free text: every window advances by exactly 800 characters, so a
text of `n` identical letters yields at least `n / 800` chunks. -/

theorem getD_replicate_char (n : Nat) (a dflt : Char) (i : Nat) :
    (List.replicate n a).getD i dflt = if i < n then a else dflt := by
  rw [List.getD_eq_getElem?_getD, List.getElem?_replicate]
  by_cases h : i < n
  · rw [if_pos h, if_pos h]
    rfl
  · rw [if_neg h, if_neg h]
    rfl

theorem pyRfind_replicate_none (n start stop : Nat) :
    pyRfind (List.replicate n 'a') '.' start stop = none := by
  cases h : pyRfind (List.replicate n 'a') '.' start stop with
  | none => rfl
  | some i =>
      exfalso
      have hdot := (pyRfind_spec _ _ _ _ _ h).2.2
      rw [getD_replicate_char] at hdot
      by_cases hi : i < n
      · rw [if_pos hi] at hdot
        exact absurd hdot (by decide)
      · rw [if_neg hi] at hdot
        exact absurd hdot (by decide)

theorem pyStrip_replicate (m : Nat) : pyStrip (List.replicate m 'a') = List.replicate m 'a' := by
  have hdw : ∀ k, (List.replicate k 'a').dropWhile Char.isWhitespace = List.replicate k 'a' := by
    intro k
    cases k with
    | zero => rfl
    | succ j =>
        rw [List.replicate_succ, List.dropWhile_cons]
        rw [if_neg (by decide)]
  rw [pyStrip, hdw, List.reverse_replicate, hdw, List.reverse_replicate]

theorem chunkWindowEnd_replicate_mid (n start : Nat) (h : start + 1000 < n) :
    chunkWindowEnd (List.replicate n 'a') start = start + 1000 := by
  unfold chunkWindowEnd
  simp only [List.length_replicate]
  rw [show min (start + 1000) n = start + 1000 by omega]
  rw [if_pos (by omega), pyRfind_replicate_none]

theorem chunkWindowEnd_replicate_last (n start : Nat) (h : ¬ start + 1000 < n) :
    chunkWindowEnd (List.replicate n 'a') start = n := by
  unfold chunkWindowEnd
  simp only [List.length_replicate]
  rw [show min (start + 1000) n = n by omega]
  rw [if_neg (lt_irrefl n)]

theorem chunkLoop_replicate_count (n : Nat) :
    ∀ m start, n - start ≤ m → start < n →
      (n - start) / 800 ≤ (chunkTextLoop (List.replicate n 'a') start).length := by
  intro m
  induction m with
  | zero => intro start hle hlt; omega
  | succ m ih =>
      intro start hle hlt
      have hlen : (List.replicate n 'a').length = n := List.length_replicate _ _
      by_cases hbig : start + 1000 < n
      · have hwe := chunkWindowEnd_replicate_mid n start hbig
        have hslice : ((List.replicate n 'a').drop start).take
            (chunkWindowEnd (List.replicate n 'a') start - start) = List.replicate 1000 'a' := by
          rw [hwe, List.drop_replicate, List.take_replicate]
          congr 1
          omega
        have hchunk : pyStrip (((List.replicate n 'a').drop start).take
            (chunkWindowEnd (List.replicate n 'a') start - start)) = List.replicate 1000 'a' := by
          rw [hslice, pyStrip_replicate]
        rw [chunkTextLoop_eq _ _ (by rw [hlen]; omega)]
        rw [hchunk]
        rw [if_neg (by simp)]
        rw [if_pos (by rw [hwe, hlen]; omega)]
        have hrec := ih (chunkWindowEnd (List.replicate n 'a') start - 200)
          (by rw [hwe]; omega) (by rw [hwe]; omega)
        rw [hwe] at hrec
        rw [hwe, List.length_cons]
        omega
      · have hwe := chunkWindowEnd_replicate_last n start hbig
        have hslice : ((List.replicate n 'a').drop start).take
            (chunkWindowEnd (List.replicate n 'a') start - start) =
            List.replicate (n - start) 'a' := by
          rw [hwe, List.drop_replicate, List.take_replicate]
          congr 1
          omega
        have hchunk : pyStrip (((List.replicate n 'a').drop start).take
            (chunkWindowEnd (List.replicate n 'a') start - start)) =
            List.replicate (n - start) 'a' := by
          rw [hslice, pyStrip_replicate]
        rw [chunkTextLoop_eq _ _ (by rw [hlen]; exact hlt)]
        rw [hchunk]
        rw [if_neg (by simp; omega)]
        rw [if_neg (by rw [hwe, hlen]; exact lt_irrefl n)]
        simp only [List.length_cons, List.length_nil]
        omega


/-- C2 (amended): for a document already present in the index (by id or
content hash), indexing an updated version with chunking enabled deletes the
existing chunks of that document id before writing new ones, but the deletion
fetch is capped at 1000 chunks; provided the parent held at most 1000 chunks,
an update whose content is at or below the 500-character chunking threshold
leaves zero chunks for that parent. -/
theorem C2_shrink_leaves_no_chunks (s : WIndex) (d : IndexDoc) (i : String)
    (hid : d.id = some i)
    (hfound : (find_existing_document s d.id (sha256_hexdigest d.content)).isSome)
    (hcount : (chunksOfParent s i).length ≤ 1000)
    (hshort : d.content.length ≤ 500) :
    chunksOfParent (index_document s d) i = [] := by
  obtain ⟨u, hu⟩ := Option.isSome_iff_exists.mp hfound
  have hshape := index_document_update s d u hu
  have hins : insertedChunks s.nextUuid d = [] := by
    unfold insertedChunks
    rw [if_neg (by omega)]
  have h0 := delete_chunks_removes_all s i hcount
  unfold chunksOfParent at h0 ⊢
  rw [hshape]
  dsimp only
  rw [hins, List.append_nil, hid]
  exact h0

/-- Concrete state for the C2 witness: one indexed document with one chunk. -/
def c2DocOld : IndexDoc :=
  { id := some "id1", name := some "f", file_path := "/f.txt",
    content := ['x'], full_text := some ['x'] }

/-- The updated (shrunken) version of the same document. -/
def c2DocNew : IndexDoc :=
  { id := some "id1", name := some "f", file_path := "/f.txt",
    content := ['y'], full_text := some ['y'] }

/-- Index state holding `c2DocOld` with a single chunk. -/
def c2State : WIndex :=
  { docs := [⟨0, prepare_document_for_weaviate c2DocOld (sha256_hexdigest c2DocOld.content)⟩]
    chunks := [⟨1, mkChunkProps c2DocOld 0 1 ['x']⟩]
    nextUuid := 2 }

theorem C2_witness :
    c2DocNew.id = some "id1" ∧
    (find_existing_document c2State c2DocNew.id (sha256_hexdigest c2DocNew.content)).isSome ∧
    (chunksOfParent c2State "id1").length ≤ 1000 ∧
    c2DocNew.content.length ≤ 500 ∧
    chunksOfParent (index_document c2State c2DocNew) "id1" = [] := by
  refine ⟨rfl, by decide, by decide, by decide, ?_⟩
  exact C2_shrink_leaves_no_chunks c2State c2DocNew "id1" rfl (by decide) (by decide) (by decide)

/-- A document whose full text produces more than 1000 chunks. -/
def hugeText : List Char := List.replicate 1000000 'a'

/-- The huge document (content above the 500-character threshold, full text
of a million characters). -/
def hugeDoc : IndexDoc :=
  { id := some "id1", name := some "huge", file_path := "/p/huge.txt",
    content := List.replicate 501 'a', full_text := some hugeText }

/-- An updated version of the huge document shrunk below the threshold. -/
def shrunkDoc : IndexDoc :=
  { id := some "id1", name := some "huge", file_path := "/p/huge.txt",
    content := List.replicate 100 'b', full_text := some (List.replicate 100 'b') }

theorem hugeText_ne_nil : hugeText ≠ [] := by
  intro h
  have : hugeText.length = 1000000 := List.length_replicate _ _
  rw [h] at this
  simp at this

theorem chunk_source_hugeDoc : chunk_source hugeDoc = hugeText := by
  unfold chunk_source hugeDoc
  dsimp only
  rw [if_neg hugeText_ne_nil]

theorem hugeChunkCount : 1250 ≤ (chunk_text (chunk_source hugeDoc)).length := by
  rw [chunk_source_hugeDoc]
  unfold chunk_text hugeText
  have := chunkLoop_replicate_count 1000000 1000000 0 (by omega) (by omega)
  omega

theorem find_hugeDoc_empty :
    find_existing_document emptyIndex hugeDoc.id (sha256_hexdigest hugeDoc.content) = none := by
  rfl

/-- The state after indexing the huge document into the empty index. -/
theorem hugeState_shape :
    index_document emptyIndex hugeDoc =
      { docs := [⟨0, prepare_document_for_weaviate hugeDoc (sha256_hexdigest hugeDoc.content)⟩]
        chunks := insertedChunks 1 hugeDoc
        nextUuid := 1 + (insertedChunks 1 hugeDoc).length } := by
  rw [index_document_fresh emptyIndex hugeDoc find_hugeDoc_empty]
  have h0 : emptyIndex.docs = [] := rfl
  have h1 : emptyIndex.chunks = [] := rfl
  have h2 : emptyIndex.nextUuid = 0 := rfl
  rw [h0, h1, h2, List.nil_append, List.nil_append]

theorem hugeChunks_length : 1250 ≤ (insertedChunks 1 hugeDoc).length := by
  rw [insertedChunks_length]
  rw [if_pos (by unfold hugeDoc; simp)]
  exact hugeChunkCount

/-- C2 counterexample: the deletion fetch is capped at 1000 chunks, so after
shrinking a document that held more than 1000 chunks, chunks for that parent
remain — the claim's "zero chunks for that parent remain" is false. -/
theorem C2_counterexample :
    shrunkDoc.content.length ≤ 500 ∧
    (find_existing_document (index_document emptyIndex hugeDoc) shrunkDoc.id
      (sha256_hexdigest shrunkDoc.content)).isSome ∧
    chunksOfParent (index_document (index_document emptyIndex hugeDoc) shrunkDoc) "id1" ≠ [] := by
  have hs1 := hugeState_shape
  set s1 := index_document emptyIndex hugeDoc with hs1def
  have hdocs1 : s1.docs =
      [⟨0, prepare_document_for_weaviate hugeDoc (sha256_hexdigest hugeDoc.content)⟩] := by
    rw [hs1]
  have hchunks1 : s1.chunks = insertedChunks 1 hugeDoc := by rw [hs1]
  have hfind2 : find_existing_document s1 shrunkDoc.id (sha256_hexdigest shrunkDoc.content) =
      some 0 := by
    have : shrunkDoc.id = some "id1" := rfl
    rw [this]
    refine find_existing_append_self s1 [] 0 _ (by rw [hdocs1]; rfl) "id1" (by decide) rfl rfl _
  refine ⟨by decide, by rw [hfind2]; rfl, ?_⟩
  have hshape2 := index_document_update s1 shrunkDoc 0 hfind2
  have hdel : (delete_document_chunks s1 shrunkDoc.id).chunks = s1.chunks.drop 1000 := by
    have : shrunkDoc.id = some "id1" := rfl
    rw [this]
    apply delete_chunks_all_match
    · intro c hc
      rw [hchunks1] at hc
      have := insertedChunks_parent 1 hugeDoc c hc
      rw [this]
      rfl
    · rw [hchunks1]
      exact insertedChunks_uuid_nodup 1 hugeDoc
  have hins2 : insertedChunks s1.nextUuid shrunkDoc = [] := by
    unfold insertedChunks
    rw [if_neg (by decide)]
  intro hnil
  unfold chunksOfParent at hnil
  rw [hshape2] at hnil
  dsimp only at hnil
  rw [hins2, List.append_nil, hdel, hchunks1] at hnil
  have hsub : ∀ c ∈ (insertedChunks 1 hugeDoc).drop 1000,
      c.props.parent_dropbox_id = some "id1" := by
    intro c hc
    have := insertedChunks_parent 1 hugeDoc c (List.mem_of_mem_drop hc)
    rw [this]
    rfl
  have hfull : ((insertedChunks 1 hugeDoc).drop 1000).filter
      (fun c => decide (c.props.parent_dropbox_id = some "id1")) =
      (insertedChunks 1 hugeDoc).drop 1000 := by
    rw [List.filter_eq_self]
    intro c hc
    simp [hsub c hc]
  rw [hfull] at hnil
  have hlen := congrArg List.length hnil
  rw [List.length_drop, List.length_nil] at hlen
  have := hugeChunks_length
  omega


theorem map_update_id (docs : List DocRecord) (u : Nat) (w2 : WeaviateDoc)
    (hu : ∀ r ∈ docs, r.uuid ≠ u) :
    docs.map (fun r => if r.uuid = u then (⟨r.uuid, w2⟩ : DocRecord) else r) = docs := by
  have h : ∀ r ∈ docs, (if r.uuid = u then (⟨r.uuid, w2⟩ : DocRecord) else r) = r := by
    intro r hr
    rw [if_neg (hu r hr)]
  calc docs.map (fun r => if r.uuid = u then (⟨r.uuid, w2⟩ : DocRecord) else r)
      = docs.map (fun r => r) := List.map_congr_left h
    _ = docs := List.map_id' docs

/-- C3 (amended): indexing is idempotent on content identity provided the
document yields at most 1000 chunks (the chunk-deletion fetch of an update is
capped at 1000): for a document not yet present, indexing it twice leaves the
`Document` collection of the second call identical to the first and the chunk
collection contents unchanged, with exactly one record carrying the document
id; and a second file with identical content but a different id and path is
found through the content-hash fallback and updates that record instead of
inserting, leaving exactly one record with that content hash. -/
theorem C3_idempotent_upsert (s0 : WIndex) (d d2 : IndexDoc) (i i2 : String)
    (hwfd : ∀ r ∈ s0.docs, r.uuid < s0.nextUuid)
    (hwfc : ∀ c ∈ s0.chunks, c.uuid < s0.nextUuid)
    (hid : d.id = some i) (hine : i ≠ "")
    (hfind : find_existing_document s0 d.id (sha256_hexdigest d.content) = none)
    (hnochunks : chunksOfParent s0 i = [])
    (hcount : (chunk_text (chunk_source d)).length ≤ 1000) :
    ((index_document (index_document s0 d) d).docs = (index_document s0 d).docs ∧
     chunkPropsOf (index_document (index_document s0 d) d) =
       chunkPropsOf (index_document s0 d) ∧
     (index_document (index_document s0 d) d).docs.countP
        (fun r => decide (r.props.dropbox_id = some i)) = 1) ∧
    (d2.id = some i2 → i2 ≠ "" → i2 ≠ i → d2.content = d.content →
      find_existing_document s0 (some i2) (sha256_hexdigest d.content) = none →
      (index_document (index_document s0 d) d2).docs.countP
          (fun r => decide (r.props.content_hash = sha256_hexdigest d.content)) = 1 ∧
      (index_document (index_document s0 d) d2).docs.length =
        (index_document s0 d).docs.length) := by
  have hfilters := find_existing_none_filters s0 i hine (sha256_hexdigest d.content)
    (by rw [← hid]; exact hfind)
  have hshape1 := index_document_fresh s0 d hfind
  have hdocs1 : (index_document s0 d).docs = s0.docs ++
      [⟨s0.nextUuid, prepare_document_for_weaviate d (sha256_hexdigest d.content)⟩] := by
    rw [hshape1]
  have hchunks1 : (index_document s0 d).chunks =
      s0.chunks ++ insertedChunks (s0.nextUuid + 1) d := by
    rw [hshape1]
  have hwid : (prepare_document_for_weaviate d (sha256_hexdigest d.content)).dropbox_id =
      some i := hid
  have hwhash : (prepare_document_for_weaviate d (sha256_hexdigest d.content)).content_hash =
      sha256_hexdigest d.content := rfl
  have hfind2 : find_existing_document (index_document s0 d) d.id
      (sha256_hexdigest d.content) = some s0.nextUuid := by
    rw [hid]
    exact find_existing_append_self _ s0.docs s0.nextUuid _ hdocs1 i hine hwid hfilters.1 _
  have hshape2 := index_document_update (index_document s0 d) d s0.nextUuid hfind2
  have hother : ∀ c ∈ s0.chunks, c.props.parent_dropbox_id ≠ some i := by
    intro c hc
    have h := List.filter_eq_nil_iff.mp hnochunks c hc
    simpa using h
  have hminepar : ∀ c ∈ insertedChunks (s0.nextUuid + 1) d,
      c.props.parent_dropbox_id = some i := by
    intro c hc
    rw [insertedChunks_parent _ _ c hc, hid]
  have hNlen : (insertedChunks (s0.nextUuid + 1) d).length ≤ 1000 := by
    rw [insertedChunks_length]
    split
    · exact hcount
    · omega
  have hdisj : ∀ c ∈ s0.chunks, ∀ m ∈ insertedChunks (s0.nextUuid + 1) d,
      c.uuid ≠ m.uuid := by
    intro c hc m hm
    have h1 := hwfc c hc
    have h2 := (insertedChunks_uuid_bound _ _ m hm).1
    omega
  have hdel : (delete_document_chunks (index_document s0 d) d.id).chunks = s0.chunks := by
    rw [hid]
    exact delete_chunks_exact _ i s0.chunks _ hchunks1 hother hminepar hNlen hdisj
  have hupd_id : ((index_document s0 d).docs.map
      (fun r => if r.uuid = s0.nextUuid then
        (⟨r.uuid, prepare_document_for_weaviate d (sha256_hexdigest d.content)⟩ : DocRecord)
      else r)) = (index_document s0 d).docs := by
    rw [hdocs1, List.map_append]
    congr 1
    · apply map_update_id
      intro r hr
      have := hwfd r hr
      omega
    · simp
  have hdocs2 : (index_document (index_document s0 d) d).docs = (index_document s0 d).docs := by
    rw [hshape2]
    exact hupd_id
  refine ⟨⟨hdocs2, ?_, ?_⟩, ?_⟩
  · unfold chunkPropsOf
    rw [hshape2]
    dsimp only
    rw [hdel, hchunks1, List.map_append, List.map_append]
    congr 1
    exact insertedChunks_map_props _ _ d
  · rw [hdocs2, hdocs1, List.countP_append]
    have hc0 : s0.docs.countP (fun r => decide (r.props.dropbox_id = some i)) = 0 := by
      rw [List.countP_eq_length_filter, hfilters.1]
      rfl
    rw [hc0]
    simp [hwid]
  · intro hid2 hi2ne hii hcontent hfindI2
    have hhash2 : sha256_hexdigest d2.content = sha256_hexdigest d.content := by
      rw [hcontent]
    have hfilters2 := find_existing_none_filters s0 i2 hi2ne (sha256_hexdigest d.content) hfindI2
    have hwid2 : (prepare_document_for_weaviate d (sha256_hexdigest d.content)).dropbox_id ≠
        some i2 := by
      rw [hwid]
      intro hcon
      exact hii (Option.some.inj hcon).symm
    have hfind2b : find_existing_document (index_document s0 d) d2.id
        (sha256_hexdigest d2.content) = some s0.nextUuid := by
      rw [hid2, hhash2]
      exact find_existing_append_by_hash _ s0.docs s0.nextUuid _ hdocs1 i2 hi2ne hwid2
        hfilters2.1 _ hwhash hfilters.2
    have hshape3 := index_document_update (index_document s0 d) d2 s0.nextUuid hfind2b
    constructor
    · rw [hshape3]
      dsimp only
      rw [hdocs1, List.map_append]
      have hmap0 : s0.docs.map
          (fun r => if r.uuid = s0.nextUuid then
            (⟨r.uuid, prepare_document_for_weaviate d2 (sha256_hexdigest d2.content)⟩ : DocRecord)
          else r) = s0.docs := by
        apply map_update_id
        intro r hr
        have := hwfd r hr
        omega
      rw [hmap0, List.countP_append]
      have hc0 : s0.docs.countP (fun r => decide (r.props.content_hash =
          sha256_hexdigest d.content)) = 0 := by
        rw [List.countP_eq_length_filter, hfilters.2]
        rfl
      rw [hc0]
      simp [hhash2, prepare_document_for_weaviate]
    · rw [hshape3]
      dsimp only
      rw [List.length_map]



/-- Evaluation of `chunk_text` on texts of at most one window: a single
stripped chunk (or nothing when the text strips to nothing). -/
theorem chunk_text_short (text : List Char) (h : text.length ≤ 1000) :
    chunk_text text = if pyStrip text = [] then [] else [pyStrip text] := by
  unfold chunk_text
  by_cases h0 : 0 < text.length
  · have hwe : chunkWindowEnd text 0 = text.length := by
      unfold chunkWindowEnd
      rw [show min (0 + 1000) text.length = text.length by omega]
      rw [if_neg (lt_irrefl _)]
    rw [chunkTextLoop_eq text 0 h0, hwe]
    rw [show (text.drop 0).take (text.length - 0) = text by simp]
    rw [if_neg (lt_irrefl text.length)]
  · have htext : text = [] := List.length_eq_zero.mp (by omega)
    subst htext
    rw [chunkTextLoop_eq_nil _ _ (by simp)]
    simp [pyStrip]

/-- Concrete first file for the C3 witness. -/
def c3Doc : IndexDoc :=
  { id := some "idA", name := some "a", file_path := "/a.txt",
    content := ['h', 'i'], full_text := some ['h', 'i'] }

/-- Concrete renamed second file for the C3 witness: identical content,
different id and path. -/
def c3Doc2 : IndexDoc :=
  { id := some "idB", name := some "a2", file_path := "/b.txt",
    content := ['h', 'i'], full_text := some ['h', 'i'] }

theorem C3_witness :
    ((∀ r ∈ emptyIndex.docs, r.uuid < emptyIndex.nextUuid) ∧
     (∀ c ∈ emptyIndex.chunks, c.uuid < emptyIndex.nextUuid) ∧
     c3Doc.id = some "idA" ∧ "idA" ≠ "" ∧
     find_existing_document emptyIndex c3Doc.id (sha256_hexdigest c3Doc.content) = none ∧
     chunksOfParent emptyIndex "idA" = [] ∧
     (chunk_text (chunk_source c3Doc)).length ≤ 1000 ∧
     c3Doc2.id = some "idB" ∧ "idB" ≠ "" ∧ "idB" ≠ "idA" ∧ c3Doc2.content = c3Doc.content ∧
     find_existing_document emptyIndex (some "idB") (sha256_hexdigest c3Doc.content) = none) ∧
    ((index_document (index_document emptyIndex c3Doc) c3Doc).docs =
       (index_document emptyIndex c3Doc).docs ∧
     chunkPropsOf (index_document (index_document emptyIndex c3Doc) c3Doc) =
       chunkPropsOf (index_document emptyIndex c3Doc) ∧
     (index_document (index_document emptyIndex c3Doc) c3Doc).docs.countP
        (fun r => decide (r.props.dropbox_id = some "idA")) = 1) ∧
    ((index_document (index_document emptyIndex c3Doc) c3Doc2).docs.countP
        (fun r => decide (r.props.content_hash = sha256_hexdigest c3Doc.content)) = 1 ∧
     (index_document (index_document emptyIndex c3Doc) c3Doc2).docs.length =
       (index_document emptyIndex c3Doc).docs.length) := by
  have hcnt : (chunk_text (chunk_source c3Doc)).length ≤ 1000 := by
    rw [chunk_text_short (chunk_source c3Doc) (by decide)]
    decide
  have main := C3_idempotent_upsert emptyIndex c3Doc c3Doc2 "idA" "idB"
    (by decide) (by decide) rfl (by decide) (by decide) (by decide) hcnt
  exact ⟨⟨by decide, by decide, rfl, by decide, by decide, by decide, hcnt,
    rfl, by decide, by decide, rfl, by decide⟩,
    main.1, main.2 rfl (by decide) (by decide) rfl (by decide)⟩

/-- C3 counterexample: for a document yielding more than 1000 chunks, the
second identical indexing deletes only the first 1000 old chunks and then
re-inserts the full chunk list, so the chunk collection contents change —
the claim's unconditional "unchanged chunk set" is false. -/
theorem C3_counterexample :
    chunkPropsOf (index_document (index_document emptyIndex hugeDoc) hugeDoc) ≠
      chunkPropsOf (index_document emptyIndex hugeDoc) := by
  have hs1 := hugeState_shape
  have hdocs1 : (index_document emptyIndex hugeDoc).docs =
      [⟨0, prepare_document_for_weaviate hugeDoc (sha256_hexdigest hugeDoc.content)⟩] := by
    rw [hs1]
  have hchunks1 : (index_document emptyIndex hugeDoc).chunks = insertedChunks 1 hugeDoc := by
    rw [hs1]
  have hfind2 : find_existing_document (index_document emptyIndex hugeDoc) hugeDoc.id
      (sha256_hexdigest hugeDoc.content) = some 0 := by
    have hidr : hugeDoc.id = some "id1" := rfl
    rw [hidr]
    exact find_existing_append_self _ [] 0 _ (by rw [hdocs1]; rfl) "id1" (by decide) rfl rfl _
  have hshape2 := index_document_update (index_document emptyIndex hugeDoc) hugeDoc 0 hfind2
  have hdel : (delete_document_chunks (index_document emptyIndex hugeDoc) hugeDoc.id).chunks =
      (index_document emptyIndex hugeDoc).chunks.drop 1000 := by
    have hidr : hugeDoc.id = some "id1" := rfl
    rw [hidr]
    apply delete_chunks_all_match
    · intro c hc
      rw [hchunks1] at hc
      have := insertedChunks_parent 1 hugeDoc c hc
      rw [this]
      rfl
    · rw [hchunks1]
      exact insertedChunks_uuid_nodup 1 hugeDoc
  have hbig : 500 < hugeDoc.content.length := by
    show 500 < (List.replicate 501 'a').length
    rw [List.length_replicate]
    omega
  have hMlen : ∀ base, (insertedChunks base hugeDoc).length =
      (chunk_text (chunk_source hugeDoc)).length := by
    intro base
    rw [insertedChunks_length, if_pos hbig]
  intro heq
  have hlen := congrArg List.length heq
  unfold chunkPropsOf at hlen
  rw [hshape2] at hlen
  dsimp only at hlen
  rw [hdel, hchunks1] at hlen
  rw [List.length_map, List.length_map, List.length_append, List.length_drop] at hlen
  rw [hMlen, hMlen] at hlen
  have hC := hugeChunkCount
  omega


/-! ### `DropboxSearchOrchestrator`
(`src/agents/dropbox_v2/search_orchestrator.py`)

`SearchEntities` is the pydantic schema of `entity_extractor.py`.  The LLM
extraction calls are collaborator boundaries and are abstracted as function
parameters.  Python truthiness of optional strings (`if entities.project:`)
treats both `None` and the empty string as false. -/

/-- `SearchEntities` (entity_extractor.py, lines 17-25). The date and amount
ranges are carried opaquely: no claim reads them. -/
structure SearchEntities where
  project : Option String := none
  contractor : Option String := none
  document_type : Option String := none
  keywords : List String := []
  date_range : Option (List (String × String)) := none
  amount_range : Option (List (String × ℚ)) := none
  specific_file : Option String := none
deriving DecidableEq, Repr

/-- A Weaviate v4 filter tree as built by `_build_filters`. -/
inductive PropFilter where
  | like (prop : String) (pattern : String)
  | and (a b : PropFilter)
  | or (a b : PropFilter)
deriving DecidableEq, Repr

/-- One search strategy dictionary. -/
structure Strategy where
  stype : String
  query : String
  alpha : Option ℚ := none
  filters : Option PropFilter := none
deriving DecidableEq, Repr

/-- Python truthiness of an optional string. -/
def pyTruthy : Option String → Bool
  | none => false
  | some s => decide (s ≠ "")

/-- `if entities.x: terms.append(entities.x)` — a truthy optional contributes
one term. -/
def optToList : Option String → List String
  | none => []
  | some s => if s = "" then [] else [s]

/-- `DropboxSearchOrchestrator._build_filters`: one LIKE condition per truthy
field (contractor ORs the `contractor` and `vendor_name` properties), ANDed
left to right; `None` when no condition. -/
def build_filters (e : SearchEntities) : Option PropFilter :=
  let conds : List PropFilter :=
    (match e.project with
      | some p => if p = "" then [] else [PropFilter.like "project_name" ("*" ++ p ++ "*")]
      | none => []) ++
    (match e.contractor with
      | some c => if c = "" then [] else
          [PropFilter.or (PropFilter.like "contractor" ("*" ++ c ++ "*"))
            (PropFilter.like "vendor_name" ("*" ++ c ++ "*"))]
      | none => []) ++
    (match e.document_type with
      | some t => if t = "" then [] else [PropFilter.like "document_type" ("*" ++ t ++ "*")]
      | none => [])
  match conds with
  | [] => none
  | c :: rest => some (rest.foldl PropFilter.and c)

/-- `keyword.replace('.', '')`. -/
def removeDots (s : String) : String := String.mk (s.toList.filter (fun c => decide (c ≠ '.')))

/-- Python `str.isdigit` (ASCII digits): nonempty and all digits. -/
def pyIsDigit (s : String) : Bool := decide (s.toList ≠ []) && s.toList.all Char.isDigit

/-- The rational 1/2 (alpha 0.5), written in normal form so that kernel
evaluation ('decide') works: rational normalization uses gcd, which does not
reduce in the kernel. -/
def ratHalf : ℚ := ⟨1, 2, by norm_num, by norm_num⟩

theorem ratHalf_val : ratHalf = 1 / 2 := by
  rw [ratHalf, Rat.mk'_eq_divInt, Rat.divInt_eq_div]
  norm_num

/-- The rational 7/10 (alpha 0.7) in normal form. -/
def ratSevenTenths : ℚ := ⟨7, 10, by norm_num, by norm_num⟩

theorem ratSevenTenths_val : ratSevenTenths = 7 / 10 := by
  rw [ratSevenTenths, Rat.mk'_eq_divInt, Rat.divInt_eq_div]
  norm_num

/-- `DropboxSearchOrchestrator._build_search_strategies`. -/
def build_search_strategies (e : SearchEntities) : List Strategy :=
  let terms := optToList e.project ++ optToList e.contractor ++
    optToList e.document_type ++ e.keywords
  let joined := String.intercalate " " terms
  (if terms ≠ [] then
    [{ stype := "hybrid", query := joined, alpha := some ratHalf,
       filters := build_filters e }] else []) ++
  (if 10 < joined.length then
    [{ stype := "vector", query := joined, filters := build_filters e }] else []) ++
  (if pyTruthy e.specific_file || e.keywords.any (fun k => pyIsDigit (removeDots k)) then
    [{ stype := "keyword",
       query := match e.specific_file with
         | some f => if f = "" then String.intercalate " " e.keywords else f
         | none => String.intercalate " " e.keywords
       filters := build_filters e }] else []) ++
  (if terms ≠ [] then
    [{ stype := "hybrid", query := joined, alpha := some ratSevenTenths, filters := none }] else [])

/-- C7: entities whose only populated field is `keywords = ["W9"]`. -/
def c7Entities : SearchEntities := { keywords := ["W9"] }

/-- C7: with only `keywords=["W9"]` set, the strategy builder emits at least
one hybrid strategy ("W9" is nonempty so the terms list is nonempty) and no
keyword strategy (no specific file, and "W9" is not digit-shaped). -/
theorem C7_w9_strategies :
    (∃ st ∈ build_search_strategies c7Entities, st.stype = "hybrid") ∧
    (∀ st ∈ build_search_strategies c7Entities, st.stype ≠ "keyword") := by
  decide

/-- The per-request search context dictionary of the orchestrator. -/
structure SearchContext where
  last_search : Option String := none
  last_document : Option String := none
  last_entities : Option SearchEntities := none

/-- The context-inheritance block of `search_with_context`: when previous
entities exist, unset (falsy) project/contractor fields inherit the previous
truthy values. -/
def inherit_context (e : SearchEntities) (last : Option SearchEntities) : SearchEntities :=
  match last with
  | none => e
  | some l =>
      let e1 := if ¬ (pyTruthy e.project = true) ∧ pyTruthy l.project = true then
        { e with project := l.project } else e
      if ¬ (pyTruthy e1.contractor = true) ∧ pyTruthy l.contractor = true then
        { e1 with contractor := l.contractor } else e1

/-- `'that' in query.lower() or 'it' in query.lower()`. -/
def contains_referential (query : String) : Bool :=
  containsSub "that".toList (pyLower query.toList) ||
    containsSub "it".toList (pyLower query.toList)

/-- Data flow of `DropboxSearchOrchestrator.search` relevant to C5: the
strategies executed come from `_build_search_strategies` applied to the
fresh extraction `self.extractor.extract_with_examples(query, discovered)`;
`extractWE` abstracts that LLM call. -/
def search_strategies_used (extractWE : String → SearchEntities) (query : String) :
    List Strategy :=
  build_search_strategies (extractWE query)

/-- `DropboxSearchOrchestrator.search_with_context`: extract entities with
context (`extractCtx` abstracts `self.extractor.extract`), inherit unset
project/contractor fields from the previous turn when the query contains
referential language, then `return self.search(query)` — the source passes
only the query string to `search`, which re-extracts.  The pair returned
here is (strategies actually used by the delegated `search` call, the
inherited entities value the method computed). -/
def search_with_context_strategies (extractWE : String → SearchEntities)
    (extractCtx : String → SearchContext → SearchEntities)
    (ctx : SearchContext) (query : String) : List Strategy × SearchEntities :=
  let entities := extractCtx query ctx
  let entities := if contains_referential query then
    inherit_context entities ctx.last_entities else entities
  (search_strategies_used extractWE query, entities)

/-- Fresh extraction for the C5 failing input: only a keyword, no project. -/
def c5Fresh : SearchEntities := { keywords := ["invoice"] }

/-- Previous-turn entities for the C5 failing input. -/
def c5Last : SearchEntities := { project := some "123 Main" }

/-- Search context holding the previous turn. -/
def c5Ctx : SearchContext := { last_entities := some c5Last }

/-- C5 (code evaluated at the failing input): the strategies used by
`search_with_context` are built from the fresh re-extraction and do not
depend on the previous turn at all — for the follow-up
"show me the invoice for that" with a previous project "123 Main", the
computed inherited entities carry the project, but the strategies used are
those of the fresh extraction, which differ from the strategies the
inherited entities would build. -/
theorem C5_inherited_entities_unused :
    (∀ (extractWE : String → SearchEntities)
       (extractCtx : String → SearchContext → SearchEntities)
       (ctx1 ctx2 : SearchContext) (query : String),
        (search_with_context_strategies extractWE extractCtx ctx1 query).1 =
          (search_with_context_strategies extractWE extractCtx ctx2 query).1) ∧
    contains_referential "show me the invoice for that" = true ∧
    (search_with_context_strategies (fun _ => c5Fresh) (fun _ _ => c5Fresh) c5Ctx
        "show me the invoice for that").2 =
      { c5Fresh with project := some "123 Main" } ∧
    (search_with_context_strategies (fun _ => c5Fresh) (fun _ _ => c5Fresh) c5Ctx
        "show me the invoice for that").1 = build_search_strategies c5Fresh ∧
    build_search_strategies c5Fresh ≠
      build_search_strategies { c5Fresh with project := some "123 Main" } := by
  refine ⟨fun _ _ _ _ _ => rfl, by decide, by decide, by decide, by decide⟩


/-! ### Result fusion and ranking
(`DropboxSearchOrchestrator._combine_results` and `._rank_results`)

Search hits are property bags; the fields the orchestrator reads are
modelled, with `none` for an absent key.  Relevance scores (floats used only
through comparisons) are rationals.  `str(result)` — the Python dict
serialization used by the entity-overlap heuristic — is abstracted as a
`serialize` parameter; every property proved is independent of it. -/

/-- A raw search hit (document hit, chunk hit, or synthesized document). -/
structure Hit where
  dropbox_id : Option String := none
  uid : Option String := none
  name : Option String := none
  file_path : Option String := none
  project_name : Option String := none
  contractor : Option String := none
  document_type : Option String := none
  vendor_name : Option String := none
  content : Option (List Char) := none
  parent_dropbox_id : Option String := none
  parent_name : Option String := none
  score : Option ℚ := none
  matched_chunks : Option Nat := none
  from_chunks : Bool := false
  is_chunk : Bool := false
  heuristic_score : Nat := 0
deriving DecidableEq, Repr

/-- Python `a or b` on optional strings (empty string is falsy). -/
def pyOrStr (a b : Option String) : Option String :=
  match a with
  | some s => if s = "" then b else some s
  | none => b

/-- Truthy projection of an optional string (`if s:`). -/
def truthyStr : Option String → Option String
  | some s => if s = "" then none else some s
  | none => none

/-- `doc.get('dropbox_id') or doc.get('_id')`, kept only when truthy. -/
def hitDocId (doc : Hit) : Option String := truthyStr (pyOrStr doc.dropbox_id doc.uid)

/-- `chunk.get('parent_dropbox_id')`, kept only when truthy. -/
def chunkParent (c : Hit) : Option String := truthyStr c.parent_dropbox_id

/-- `c.get('_score', 0)`. -/
def scoreKey (c : Hit) : ℚ := c.score.getD 0

/-- First-occurrence deduplication (Python dict key order). -/
def firstDedupAux (seen : List String) : List String → List String
  | [] => []
  | x :: xs => if x ∈ seen then firstDedupAux seen xs
    else x :: firstDedupAux (x :: seen) xs

def firstDedup (l : List String) : List String := firstDedupAux [] l

/-- Stable insertion for a descending sort by the comparator `ge` (Python
`list.sort(key=..., reverse=True)`): an element is placed before the first
strictly smaller element, after equal ones already present — except that the
element being inserted comes from the left of the list, so on equal keys it
stays first. -/
def insertDesc {α : Type} (ge : α → α → Bool) (x : α) : List α → List α
  | [] => [x]
  | y :: ys => if ge x y then x :: y :: ys else y :: insertDesc ge x ys

/-- Stable descending sort by the comparator `ge`. -/
def sortDesc {α : Type} (ge : α → α → Bool) : List α → List α
  | [] => []
  | x :: xs => insertDesc ge x (sortDesc ge xs)

/-- Chunk comparator: descending by `_score` (default 0). -/
def chunkGe (a b : Hit) : Bool := decide (scoreKey b ≤ scoreKey a)

/-- The synthetic document built from the best-scoring chunk of a parent that
only matched via chunks. -/
def mkSynthetic (p : String) (best : Hit) (n : Nat) : Hit :=
  { dropbox_id := some p
    name := best.parent_name
    file_path := best.file_path
    project_name := best.project_name
    contractor := best.contractor
    document_type := best.document_type
    content := best.content
    matched_chunks := some n
    from_chunks := true
    score := some (scoreKey best) }

/-- `DropboxSearchOrchestrator._combine_results`: keep document hits with a
truthy id, group chunk hits by truthy parent id, and for each parent not
already seen synthesize a document from its best-scoring chunk. -/
def combine_results (documents chunks : List Hit) : List Hit :=
  let docPart := documents.filter (fun doc => (hitDocId doc).isSome)
  let seen := documents.filterMap hitDocId
  let parents := firstDedup (chunks.filterMap chunkParent)
  let synth := (parents.filter (fun p => decide (p ∉ seen))).filterMap (fun p =>
    match sortDesc chunkGe (chunks.filter (fun c => chunkParent c = some p)) with
    | [] => none
    | best :: _ =>
        some (mkSynthetic p best (chunks.filter (fun c => chunkParent c = some p)).length))
  docPart ++ synth

/-- The entity-overlap heuristic score of `_rank_results`: +3 project match,
+3 contractor match, +2 document-type match, +1 per matched keyword, by
case-insensitive substring containment over the serialized result. -/
def heuristicScore (serialize : Hit → List Char) (e : SearchEntities) (r : Hit) : Nat :=
  (match e.project with
    | some p => if p = "" then 0
        else if containsSub (pyLower p.toList) (pyLower (serialize r)) then 3 else 0
    | none => 0) +
  (match e.contractor with
    | some c => if c = "" then 0
        else if containsSub (pyLower c.toList) (pyLower (serialize r)) then 3 else 0
    | none => 0) +
  (match e.document_type with
    | some t => if t = "" then 0
        else if containsSub (pyLower t.toList) (pyLower (serialize r)) then 2 else 0
    | none => 0) +
  (e.keywords.filter (fun k => containsSub (pyLower k.toList) (pyLower (serialize r)))).length

/-- The dedup-and-rescore loop of `_rank_results`: keep the first hit per
nonempty file path, attaching its heuristic score. -/
def dedupRescore (serialize : Hit → List Char) (e : SearchEntities) :
    List String → List Hit → List Hit
  | _, [] => []
  | seen, r :: rs =>
      if (r.file_path.getD "") ≠ "" ∧ (r.file_path.getD "") ∉ seen then
        { r with heuristic_score := heuristicScore serialize e r } ::
          dedupRescore serialize e ((r.file_path.getD "") :: seen) rs
      else dedupRescore serialize e seen rs

/-- Ranking comparator: descending lexicographically by
(`_score` default 0, heuristic score). -/
def rankGe (a b : Hit) : Bool :=
  decide (scoreKey b < scoreKey a ∨
    (scoreKey a = scoreKey b ∧ b.heuristic_score ≤ a.heuristic_score))

/-- `DropboxSearchOrchestrator._rank_results`: deduplicate by file path
(first occurrence wins), attach heuristic scores, then stable-sort descending
by (backend score, heuristic score). -/
def rank_results (serialize : Hit → List Char) (e : SearchEntities)
    (results : List Hit) : List Hit :=
  sortDesc rankGe (dedupRescore serialize e [] results)


theorem insertDesc_perm {α : Type} (ge : α → α → Bool) (x : α) (l : List α) :
    List.Perm (insertDesc ge x l) (x :: l) := by
  induction l with
  | nil => exact List.Perm.refl _
  | cons y ys ih =>
      unfold insertDesc
      by_cases h : ge x y
      · rw [if_pos h]
      · rw [if_neg h]
        exact (List.Perm.cons y ih).trans (List.Perm.swap x y ys)

theorem sortDesc_perm {α : Type} (ge : α → α → Bool) (l : List α) :
    List.Perm (sortDesc ge l) l := by
  induction l with
  | nil => exact List.Perm.refl _
  | cons x xs ih =>
      unfold sortDesc
      exact (insertDesc_perm ge x (sortDesc ge xs)).trans (List.Perm.cons x ih)

theorem dedupRescore_not_seen (s : Hit → List Char) (e : SearchEntities) :
    ∀ seen l (r : Hit), r ∈ dedupRescore s e seen l →
      (r.file_path.getD "") ∉ seen ∧ (r.file_path.getD "") ≠ "" := by
  intro seen l
  induction l generalizing seen with
  | nil => intro r hr; simp [dedupRescore] at hr
  | cons x xs ih =>
      intro r hr
      unfold dedupRescore at hr
      by_cases hc : (x.file_path.getD "") ≠ "" ∧ (x.file_path.getD "") ∉ seen
      · rw [if_pos hc] at hr
        rcases List.mem_cons.mp hr with rfl | hr2
        · exact ⟨hc.2, hc.1⟩
        · have h := ih ((x.file_path.getD "") :: seen) r hr2
          exact ⟨fun hmem => h.1 (List.mem_cons_of_mem _ hmem), h.2⟩
      · rw [if_neg hc] at hr
        exact ih seen r hr

theorem dedupRescore_paths_nodup (s : Hit → List Char) (e : SearchEntities) :
    ∀ seen l, ((dedupRescore s e seen l).map (fun r => r.file_path.getD "")).Nodup := by
  intro seen l
  induction l generalizing seen with
  | nil => simp [dedupRescore]
  | cons x xs ih =>
      unfold dedupRescore
      by_cases hc : (x.file_path.getD "") ≠ "" ∧ (x.file_path.getD "") ∉ seen
      · rw [if_pos hc]
        simp only [List.map_cons, List.nodup_cons]
        refine ⟨?_, ih _⟩
        intro hmem
        obtain ⟨r, hr, heq⟩ := List.mem_map.mp hmem
        have h := (dedupRescore_not_seen s e _ _ r hr).1
        apply h
        rw [heq]
        exact List.mem_cons_self _ _
      · rw [if_neg hc]
        exact ih seen

theorem dedupRescore_exists (s : Hit → List Char) (e : SearchEntities) :
    ∀ seen l (r : Hit) (p : String), p ≠ "" → p ∉ seen → r ∈ l → r.file_path = some p →
      ∃ r2 ∈ dedupRescore s e seen l, r2.file_path = some p := by
  intro seen l
  induction l generalizing seen with
  | nil => intro r p _ _ hr; simp at hr
  | cons x xs ih =>
      intro r p hp hps hr hrp
      unfold dedupRescore
      by_cases hc : (x.file_path.getD "") ≠ "" ∧ (x.file_path.getD "") ∉ seen
      · rw [if_pos hc]
        by_cases hpx : x.file_path = some p
        · refine ⟨{ x with heuristic_score := heuristicScore s e x }, List.mem_cons_self _ _, hpx⟩
        · rcases List.mem_cons.mp hr with rfl | hr2
          · exact absurd hrp hpx
          · have hne : p ∉ ((x.file_path.getD "") :: seen) := by
              intro hmem
              rcases List.mem_cons.mp hmem with heq | hmem2
              · apply hpx
                cases hx : x.file_path with
                | none => rw [hx] at heq; simp at heq; exact absurd heq hp
                | some q => rw [hx] at heq; simp at heq; rw [heq]
              · exact hps hmem2
            obtain ⟨r2, hr2m, hr2p⟩ := ih _ r p hp hne hr2 hrp
            exact ⟨r2, List.mem_cons_of_mem _ hr2m, hr2p⟩
      · rw [if_neg hc]
        rcases List.mem_cons.mp hr with rfl | hr2
        · exfalso
          apply hc
          rw [hrp]
          simp [hp, hps]
        · exact ih seen r p hp hps hr2 hrp

theorem dedupRescore_find (s : Hit → List Char) (e : SearchEntities) :
    ∀ seen l (r : Hit) (p : String), p ≠ "" → p ∉ seen →
      r ∈ dedupRescore s e seen l → r.file_path = some p →
      ∃ r0, l.find? (fun x => decide (x.file_path = some p)) = some r0 ∧
        r = { r0 with heuristic_score := heuristicScore s e r0 } := by
  intro seen l
  induction l generalizing seen with
  | nil => intro r p _ _ hr; simp [dedupRescore] at hr
  | cons x xs ih =>
      intro r p hp hps hr hrp
      unfold dedupRescore at hr
      by_cases hc : (x.file_path.getD "") ≠ "" ∧ (x.file_path.getD "") ∉ seen
      · rw [if_pos hc] at hr
        rcases List.mem_cons.mp hr with rfl | hr2
        · have hxp : x.file_path = some p := hrp
          refine ⟨x, ?_, rfl⟩
          exact List.find?_cons_of_pos _ (by simp [hxp])
        · have hrseen := (dedupRescore_not_seen s e _ _ r hr2).1
          have hpnex : p ≠ (x.file_path.getD "") := by
            intro heq
            apply hrseen
            rw [hrp]
            simp [heq]
          have hxp : ¬ (x.file_path = some p) := by
            intro hx
            apply hpnex
            rw [hx]
            rfl
          obtain ⟨r0, hfind, hre⟩ := ih _ r p hp
            (by
              intro hmem
              rcases List.mem_cons.mp hmem with heq | hmem2
              · exact hpnex heq
              · exact hps hmem2) hr2 hrp
          refine ⟨r0, ?_, hre⟩
          rw [List.find?_cons_of_neg _ (by simp [hxp])]
          exact hfind
      · rw [if_neg hc] at hr
        have hxp : ¬ (x.file_path = some p) := by
          intro hx
          apply hc
          have : x.file_path.getD "" = p := by rw [hx]; rfl
          rw [this]
          exact ⟨hp, hps⟩
        obtain ⟨r0, hfind, hre⟩ := ih seen r p hp hps hr hrp
        refine ⟨r0, ?_, hre⟩
        rw [List.find?_cons_of_neg _ (by simp [hxp])]
        exact hfind

theorem countP_le_one_of_map_nodup {α β : Type} [DecidableEq β] (f : α → β) (l : List α)
    (hn : (l.map f).Nodup) (p : β) : l.countP (fun x => decide (f x = p)) ≤ 1 := by
  induction l with
  | nil => simp
  | cons x xs ih =>
      simp only [List.map_cons, List.nodup_cons] at hn
      rw [List.countP_cons]
      by_cases h : f x = p
      · have h0 : xs.countP (fun x => decide (f x = p)) = 0 := by
          rw [List.countP_eq_zero]
          intro y hy hpy
          simp only [decide_eq_true_eq] at hpy
          apply hn.1
          rw [h, ← hpy]
          exact List.mem_map_of_mem f hy
        rw [h0]
        simp [h]
      · have hfalse : (decide (f x = p)) = false := by simp [h]
        rw [hfalse]
        simpa using ih hn.2

theorem firstDedupAux_mem :
    ∀ seen l (x : String), x ∈ firstDedupAux seen l ↔ (x ∈ l ∧ x ∉ seen) := by
  intro seen l
  induction l generalizing seen with
  | nil => intro x; simp [firstDedupAux]
  | cons y ys ih =>
      intro x
      unfold firstDedupAux
      by_cases hy : y ∈ seen
      · rw [if_pos hy, ih seen]
        constructor
        · rintro ⟨h1, h2⟩
          exact ⟨List.mem_cons_of_mem _ h1, h2⟩
        · rintro ⟨h1, h2⟩
          rcases List.mem_cons.mp h1 with rfl | h3
          · exact absurd hy h2
          · exact ⟨h3, h2⟩
      · rw [if_neg hy]
        constructor
        · intro hmem
          rcases List.mem_cons.mp hmem with rfl | h3
          · exact ⟨List.mem_cons_self _ _, hy⟩
          · obtain ⟨h4, h5⟩ := (ih (y :: seen) x).mp h3
            exact ⟨List.mem_cons_of_mem _ h4,
              fun hmem2 => h5 (List.mem_cons_of_mem _ hmem2)⟩
        · rintro ⟨h1, h2⟩
          rcases List.mem_cons.mp h1 with rfl | h3
          · exact List.mem_cons_self _ _
          · by_cases hxy : x = y
            · subst hxy
              exact List.mem_cons_self _ _
            · refine List.mem_cons_of_mem _ ((ih (y :: seen) x).mpr ⟨h3, ?_⟩)
              intro hmem
              rcases List.mem_cons.mp hmem with heq | h4
              · exact hxy heq
              · exact h2 h4

theorem insertDesc_chunk_head (x : Hit) (l : List Hit) :
    ∃ b rest, insertDesc chunkGe x l = b :: rest ∧ scoreKey x ≤ scoreKey b ∧
      ∀ h hr, l = h :: hr → scoreKey h ≤ scoreKey b := by
  cases l with
  | nil => exact ⟨x, [], rfl, le_refl _, fun h hr hh => by simp at hh⟩
  | cons y ys =>
      unfold insertDesc
      by_cases hxy : chunkGe x y = true
      · rw [if_pos hxy]
        refine ⟨x, y :: ys, rfl, le_refl _, ?_⟩
        intro h hr hh
        obtain ⟨rfl, -⟩ := List.cons.inj hh
        unfold chunkGe at hxy
        exact decide_eq_true_eq.mp hxy
      · rw [if_neg hxy]
        refine ⟨y, insertDesc chunkGe x ys, rfl, ?_, ?_⟩
        · unfold chunkGe at hxy
          have h2 : ¬ scoreKey y ≤ scoreKey x := by simpa using hxy
          exact le_of_lt (not_le.mp h2)
        · intro h hr hh
          obtain ⟨rfl, -⟩ := List.cons.inj hh
          exact le_refl _


theorem sortDesc_chunk_max :
    ∀ (l : List Hit) (b : Hit) (rest : List Hit),
      sortDesc chunkGe l = b :: rest → ∀ y ∈ l, scoreKey y ≤ scoreKey b := by
  intro l
  induction l with
  | nil => intro b rest h; simp [sortDesc] at h
  | cons x xs ih =>
      intro b rest hsort y hy
      unfold sortDesc at hsort
      obtain ⟨b2, rest2, heq, hxb, hhead⟩ := insertDesc_chunk_head x (sortDesc chunkGe xs)
      rw [heq] at hsort
      obtain ⟨rfl, rfl⟩ : b2 = b ∧ rest2 = rest :=
        ⟨(List.cons.inj hsort).1, (List.cons.inj hsort).2⟩
      rcases List.mem_cons.mp hy with rfl | hy2
      · exact hxb
      · have hmem : y ∈ sortDesc chunkGe xs :=
          ((sortDesc_perm chunkGe xs).mem_iff).mpr hy2
        cases hs : sortDesc chunkGe xs with
        | nil => rw [hs] at hmem; simp at hmem
        | cons h hr =>
            have h1 := ih h hr hs y hy2
            have h2 := hhead h hr hs
            exact le_trans h1 h2

theorem path_pred_congr (p : String) (hp : p ≠ "") (r : Hit) :
    decide (r.file_path = some p) = decide (r.file_path.getD "" = p) := by
  cases hx : r.file_path with
  | none => simp [Ne.symm hp]
  | some q => simp

/-- C6: overlapping hits from the document and chunk collections for the
same source document (same natural key, the file path) fuse to exactly one
entry in the final ranked list; the surviving entry is the first occurrence
in the combined list (rescored with the entity-overlap heuristic); and a
parent matched only via chunks appears in the combined list as a document
synthesized from its best-scoring chunk. -/
theorem C6_fusion_dedup (serialize : Hit → List Char) (entities : SearchEntities)
    (documents chunks : List Hit) (d c : Hit) (p : String)
    (hd : d ∈ documents) (hdid : (hitDocId d).isSome)
    (hdp : d.file_path = some p) (hp : p ≠ "")
    (hc : c ∈ chunks) (hcp : c.file_path = some p) :
    (rank_results serialize entities (combine_results documents chunks)).countP
        (fun r => decide (r.file_path = some p)) = 1 ∧
    (∀ r ∈ rank_results serialize entities (combine_results documents chunks),
        r.file_path = some p →
        ∃ r0, (combine_results documents chunks).find?
            (fun x => decide (x.file_path = some p)) = some r0 ∧
          r = { r0 with heuristic_score := heuristicScore serialize entities r0 }) ∧
    (∀ (q : String) (best : Hit) (rest : List Hit),
        q ∉ documents.filterMap hitDocId →
        sortDesc chunkGe (chunks.filter (fun ch => decide (chunkParent ch = some q))) =
          best :: rest →
        mkSynthetic q best
            (chunks.filter (fun ch => decide (chunkParent ch = some q))).length ∈
          combine_results documents chunks ∧
        ∀ y ∈ chunks.filter (fun ch => decide (chunkParent ch = some q)),
          scoreKey y ≤ scoreKey best) := by
  have hdcomb : d ∈ combine_results documents chunks := by
    unfold combine_results
    apply List.mem_append_left
    exact List.mem_filter.mpr ⟨hd, by simp [hdid]⟩
  refine ⟨?_, ?_, ?_⟩
  · unfold rank_results
    rw [(sortDesc_perm rankGe _).countP_eq]
    have hle : (dedupRescore serialize entities [] (combine_results documents chunks)).countP
        (fun r => decide (r.file_path = some p)) ≤ 1 := by
      rw [List.countP_congr (fun r _ => by rw [path_pred_congr p hp r])]
      exact countP_le_one_of_map_nodup _ _ (dedupRescore_paths_nodup serialize entities [] _) p
    have hge : 0 < (dedupRescore serialize entities []
        (combine_results documents chunks)).countP
        (fun r => decide (r.file_path = some p)) := by
      obtain ⟨r2, hr2, hr2p⟩ := dedupRescore_exists serialize entities []
        (combine_results documents chunks) d p hp (by simp) hdcomb hdp
      exact List.countP_pos_iff.mpr ⟨r2, hr2, by simp [hr2p]⟩
    omega
  · intro r hr hrp
    unfold rank_results at hr
    have hrmem : r ∈ dedupRescore serialize entities [] (combine_results documents chunks) :=
      ((sortDesc_perm rankGe _).mem_iff).mp hr
    exact dedupRescore_find serialize entities [] _ r p hp (by simp) hrmem hrp
  · intro q best rest hqseen hsort
    have hfilne : chunks.filter (fun ch => decide (chunkParent ch = some q)) ≠ [] := by
      intro hnil
      rw [hnil] at hsort
      simp [sortDesc] at hsort
    obtain ⟨c0, hc0⟩ : ∃ c0, c0 ∈ chunks.filter (fun ch => decide (chunkParent ch = some q)) := by
      cases hx : chunks.filter (fun ch => decide (chunkParent ch = some q)) with
      | nil => exact absurd hx hfilne
      | cons a as => exact ⟨a, hx ▸ List.mem_cons_self a as⟩
    have hqpar : q ∈ firstDedup (chunks.filterMap chunkParent) := by
      rw [firstDedup, firstDedupAux_mem]
      refine ⟨?_, by simp⟩
      have hm := List.mem_filter.mp hc0
      exact List.mem_filterMap.mpr ⟨c0, hm.1, by simpa using hm.2⟩
    constructor
    · unfold combine_results
      apply List.mem_append_right
      apply List.mem_filterMap.mpr
      refine ⟨q, ?_, ?_⟩
      · exact List.mem_filter.mpr ⟨hqpar, by simp [hqseen]⟩
      · rw [hsort]
    · exact sortDesc_chunk_max _ best rest hsort


/-- Concrete document hit for the C6 witness. -/
def c6Doc : Hit := { uid := some "u1", file_path := some "/x.pdf", score := some ratHalf }

/-- Concrete chunk hit for the C6 witness: same file path, different backend
id space, higher score. -/
def c6Chunk : Hit :=
  { parent_dropbox_id := some "px", file_path := some "/x.pdf",
    content := some ['h'], score := some ratSevenTenths, is_chunk := true }

theorem C6_witness :
    (c6Doc ∈ [c6Doc] ∧ (hitDocId c6Doc).isSome ∧ c6Doc.file_path = some "/x.pdf" ∧
      "/x.pdf" ≠ "" ∧ c6Chunk ∈ [c6Chunk] ∧ c6Chunk.file_path = some "/x.pdf") ∧
    (rank_results (fun _ => []) {} (combine_results [c6Doc] [c6Chunk])).countP
        (fun r => decide (r.file_path = some "/x.pdf")) = 1 ∧
    ("px" ∉ [c6Doc].filterMap hitDocId ∧
      sortDesc chunkGe ([c6Chunk].filter (fun ch => decide (chunkParent ch = some "px"))) =
        [c6Chunk] ∧
      mkSynthetic "px" c6Chunk
          ([c6Chunk].filter (fun ch => decide (chunkParent ch = some "px"))).length ∈
        combine_results [c6Doc] [c6Chunk]) := by
  have main := C6_fusion_dedup (fun _ => []) {} [c6Doc] [c6Chunk] c6Doc c6Chunk "/x.pdf"
    (by decide) (by decide) rfl (by decide) (by decide) rfl
  have h3 := main.2.2 "px" c6Chunk [] (by decide) (by decide)
  exact ⟨⟨by decide, by decide, rfl, by decide, by decide, rfl⟩, main.1,
    by decide, by decide, h3.1⟩


/-! ### `DropboxClient` and `IncrementalSync`
(`src/agents/dropbox_v2/dropbox_client.py`, `incremental_sync.py`)

The remote API is a deterministic oracle: a full recursive listing (one
page; pagination adds nothing the claims touch) and a continuation map from
cursors.  Python exceptions are explicit values.  The tenacity wrapper
`@retry(stop=stop_after_attempt(3), retry=retry_if_exception_type(Exception))`
retries every exception; `reraise` is left at its default `False`, so after
the attempts are exhausted tenacity raises `RetryError` wrapping the last
attempt — against a deterministic oracle the three attempts collapse to one
call whose failure is wrapped.  Download and byte-level processing are the
collaborator boundary, abstracted as a `pipeline` function from a file entry
to an optional processed document (`None` = download or extraction failed). -/

/-- A Dropbox entry as converted by `_entry_to_dict` (fields the sync
reads). -/
structure Entry where
  name : String := ""
  path_display : String := ""
  id : String := ""
  etype : String := "file"
deriving DecidableEq, Repr

/-- An entry as yielded by the client generators: `list_folder_changes`
attaches `change_type`; the full-listing fallback yields entries without
it. -/
structure Change where
  entry : Entry
  change_type : Option String := none
deriving DecidableEq, Repr

/-- `DropboxClient._determine_change_type`. -/
def determine_change_type (e : Entry) : String :=
  if e.etype = "deleted" then "deleted"
  else if e.etype = "file" then "added_or_modified"
  else if e.etype = "folder" then "folder_change"
  else "unknown"

/-- Python exception values relevant to the client: Dropbox `ApiError` (with
its `is_reset` flag) and tenacity `RetryError` wrapping a failed last
attempt. -/
inductive PyExc where
  | apiError (reset : Bool)
  | retryError (inner : PyExc)
deriving DecidableEq, Repr

/-- The remote service: one-page recursive listing of the watched subtree
with the cursor returned at its end, and the change-feed continuation. -/
structure DropboxApi where
  listing : List Entry
  listCursor : String
  continueResult : String → Except PyExc (List Entry × String)

/-- `_list_folder_continue_with_retry` under a deterministic oracle: all
three tenacity attempts see the same outcome, and an exhausted retry raises
`RetryError` (tenacity default `reraise=False`) wrapping the attempt. -/
def retryCall {α : Type} (call : Except PyExc α) : Except PyExc α :=
  match call with
  | .ok a => .ok a
  | .error e => .error (.retryError e)

/-- Cursor-store key: `path or "root"`. -/
def cursorKey (path : String) : String := if path = "" then "root" else path

def setCursor (cursors : List (String × String)) (k v : String) : List (String × String) :=
  (k, v) :: cursors.filter (fun kv => decide (kv.1 ≠ k))

def delCursor (cursors : List (String × String)) (k : String) : List (String × String) :=
  cursors.filter (fun kv => decide (kv.1 ≠ k))

/-- `DropboxClient.list_folder`: yield every entry of the watched subtree
(untagged) and save the listing-end cursor for the path. -/
def list_folder (api : DropboxApi) (cursors : List (String × String)) (path : String) :
    List Change × List (String × String) :=
  (api.listing.map (fun e => { entry := e }),
   setCursor cursors (cursorKey path) api.listCursor)

/-- `DropboxClient.list_folder_changes`: with no saved cursor, fall through
to the full listing.  With a cursor, call the continuation through the retry
wrapper; on success yield tagged changes and save the new cursor.  The
`except ApiError` handler deletes the cursor and falls back to a full
listing on a reset error and swallows other `ApiError`s; any other exception
(in particular tenacity `RetryError`) escapes the generator.  The result is
(yielded changes, cursor store, escaped exception). -/
def list_folder_changes (api : DropboxApi) (cursors : List (String × String))
    (path : String) : List Change × List (String × String) × Option PyExc :=
  match cursors.lookup (cursorKey path) with
  | none =>
      let full := list_folder api cursors path
      (full.1, full.2, none)
  | some cursor =>
      match retryCall (api.continueResult cursor) with
      | .ok (entries, newCursor) =>
          (entries.map (fun e => { entry := e, change_type := some (determine_change_type e) }),
           setCursor cursors (cursorKey path) newCursor, none)
      | .error (.apiError r) =>
          if r then
            let full := list_folder api (delCursor cursors (cursorKey path)) path
            (full.1, full.2, none)
          else ([], cursors, none)
      | .error e => ([], cursors, some e)

/-- `Path(file_path).suffix`: the extension of the final path component
(empty for names without an interior dot). -/
def pathSuffix (p : String) : String :=
  let nm := (p.toList.reverse.takeWhile (fun c => decide (c ≠ '/'))).reverse
  match pyRfind nm '.' 0 nm.length with
  | some i => if 0 < i ∧ i < nm.length - 1 then String.mk (nm.drop i) else ""
  | none => ""

/-- `IncrementalSync._should_index_file`. -/
def should_index_file (p : String) : Bool :=
  decide (String.mk (pyLower (pathSuffix p).toList) ∈
    [".pdf", ".txt", ".md", ".csv", ".doc", ".docx"])

/-- `IncrementalSync._process_and_index_file`: download + transform
(abstracted as `pipeline`; `none` = failure), then `index_document`. -/
def process_and_index_file (pipeline : Entry → Option IndexDoc) (s : WIndex) (e : Entry) :
    WIndex × Bool :=
  match pipeline e with
  | none => (s, false)
  | some doc => (index_document s doc, true)

/-- `IncrementalSync._remove_from_index`. -/
def remove_from_index (s : WIndex) (e : Entry) : WIndex × Bool :=
  if e.id = "" then (s, false) else (delete_document s e.id, true)

/-- Per-run counters of `perform_incremental_sync` (wall-clock fields
omitted). -/
structure SyncStats where
  changes_processed : Nat := 0
  files_added : Nat := 0
  files_modified : Nat := 0
  files_deleted : Nat := 0
  files_failed : Nat := 0
  error : Option PyExc := none
deriving DecidableEq, Repr

/-- Index plus cursor store (the orchestrating state the sync mutates). -/
structure SyncSystem where
  index : WIndex
  cursors : List (String × String)
deriving DecidableEq, Repr

/-- The body of the `for change in self.dropbox.list_folder_changes(...)`
loop.  Note the order in the `added_or_modified` branch: the item is
processed and indexed first, and the add-vs-modify decision then consults
`_file_exists_in_index` on the already-updated index. -/
def incremental_step (pipeline : Entry → Option IndexDoc) (acc : WIndex × SyncStats)
    (ch : Change) : WIndex × SyncStats :=
  let ct := ch.change_type.getD "unknown"
  if ct = "deleted" then
    let r := remove_from_index acc.1 ch.entry
    (r.1, { acc.2 with files_deleted := acc.2.files_deleted + 1,
                       changes_processed := acc.2.changes_processed + 1 })
  else if ct = "added_or_modified" then
    if ¬ should_index_file ch.entry.path_display then acc
    else
      let r := process_and_index_file pipeline acc.1 ch.entry
      if r.2 then
        if document_exists r.1 ch.entry.id then
          (r.1, { acc.2 with files_modified := acc.2.files_modified + 1,
                             changes_processed := acc.2.changes_processed + 1 })
        else
          (r.1, { acc.2 with files_added := acc.2.files_added + 1,
                             changes_processed := acc.2.changes_processed + 1 })
      else
        (r.1, { acc.2 with files_failed := acc.2.files_failed + 1,
                           changes_processed := acc.2.changes_processed + 1 })
  else
    (acc.1, { acc.2 with changes_processed := acc.2.changes_processed + 1 })

/-- `IncrementalSync.perform_incremental_sync` over the watched root path:
consume the change feed, processing each yielded change; an exception
escaping the generator aborts the loop into the generic `except` branch,
which records the error (the changes yielded before the failure have already
been processed). -/
def perform_incremental_sync (api : DropboxApi) (pipeline : Entry → Option IndexDoc)
    (σ : SyncSystem) (root : String) : SyncSystem × SyncStats :=
  let fed := list_folder_changes api σ.cursors root
  let folded := fed.1.foldl (incremental_step pipeline) (σ.index, {})
  match fed.2.2 with
  | some e => ({ index := folded.1, cursors := fed.2.1 },
               { folded.2 with error := some e })
  | none => ({ index := folded.1, cursors := fed.2.1 }, folded.2)

/-- Per-run counters of `perform_initial_sync`. -/
structure InitStats where
  files_processed : Nat := 0
  files_indexed : Nat := 0
  files_failed : Nat := 0
  folders_found : Nat := 0
deriving DecidableEq, Repr

/-- The body of the initial-sync loop. -/
def initial_step (pipeline : Entry → Option IndexDoc) (acc : WIndex × InitStats)
    (ch : Change) : WIndex × InitStats :=
  if ch.entry.etype = "folder" then
    (acc.1, { acc.2 with folders_found := acc.2.folders_found + 1 })
  else if ch.entry.etype ≠ "file" then acc
  else if ¬ should_index_file ch.entry.path_display then acc
  else
    let r := process_and_index_file pipeline acc.1 ch.entry
    if r.2 then
      (r.1, { acc.2 with files_processed := acc.2.files_processed + 1,
                         files_indexed := acc.2.files_indexed + 1 })
    else
      (r.1, { acc.2 with files_processed := acc.2.files_processed + 1,
                         files_failed := acc.2.files_failed + 1 })

/-- `IncrementalSync.perform_initial_sync`: enumerate the entire watched
subtree and index every supported file. -/
def perform_initial_sync (api : DropboxApi) (pipeline : Entry → Option IndexDoc)
    (σ : SyncSystem) (root : String) : SyncSystem × InitStats :=
  let full := list_folder api σ.cursors root
  let folded := full.1.foldl (initial_step pipeline) (σ.index, {})
  ({ index := folded.1, cursors := full.2 }, folded.2)


/-- The one file of the concrete sync scenarios. -/
def c8Entry : Entry := { name := "a.txt", path_display := "/a.txt", id := "idA" }

/-- Its processed document (id matching the file id, content below the
chunking threshold). -/
def c8Doc : IndexDoc :=
  { id := some "idA", name := some "a.txt", file_path := "/a.txt",
    content := ['h', 'i'], full_text := some ['h', 'i'] }

/-- Download + transform pipeline succeeding exactly on that file. -/
def c8Pipeline : Entry → Option IndexDoc :=
  fun e => if e.id = "idA" then some c8Doc else none

/-- API for the C8 scenario: a healthy change feed delivering the file as
added-or-modified. -/
def c8Api : DropboxApi :=
  { listing := [], listCursor := "c1",
    continueResult := fun _ => .ok ([c8Entry], "c2") }

/-- Start state: empty index, a saved cursor for the root. -/
def c8Sys : SyncSystem := { index := emptyIndex, cursors := [("root", "c0")] }

/-- C8 (code evaluated at the failing input): for a change of a file that is
NOT yet in the index and is processed successfully, the run counts it as
modified, not added — because `_file_exists_in_index` is consulted after
`_process_and_index_file` has already indexed the item, the check always
sees the document present. The claim's pre-existence decision would count it
as an add. -/
theorem C8_post_indexing_existence_check :
    document_exists c8Sys.index c8Entry.id = false ∧
    (perform_incremental_sync c8Api c8Pipeline c8Sys "").2.files_added = 0 ∧
    (perform_incremental_sync c8Api c8Pipeline c8Sys "").2.files_modified = 1 ∧
    (perform_incremental_sync c8Api c8Pipeline c8Sys "").2.files_failed = 0 ∧
    (perform_incremental_sync c8Api c8Pipeline c8Sys "").2.error = none := by
  decide

/-- API for the C1 scenario: the continuation of any cursor fails with a
cursor-expired (reset) `ApiError`; the snapshot holds one indexable file. -/
def c1Api : DropboxApi :=
  { listing := [c8Entry], listCursor := "cNew",
    continueResult := fun _ => .error (.apiError true) }

/-- Start state for C1: empty index, a saved (expired) cursor. -/
def c1Sys : SyncSystem := { index := emptyIndex, cursors := [("root", "cExpired")] }

/-- C1 (code evaluated at the failing input): every exception escaping
`list_folder_changes` is a tenacity `RetryError`, never the `ApiError` the
reset handler catches — the fallback branch is unreachable.  Concretely,
with a saved cursor whose continuation persistently reports cursor-expired,
the incremental sync aborts with `RetryError(ApiError(reset))`, leaves the
index unchanged, and does not reproduce the state a fresh initial sync over
the same snapshot builds. -/
theorem C1_no_reset_fallback :
    (∀ (api : DropboxApi) (cursors : List (String × String)) (path : String) (e : PyExc),
        (list_folder_changes api cursors path).2.2 = some e →
        ∃ e0, e = PyExc.retryError e0) ∧
    (perform_incremental_sync c1Api c8Pipeline c1Sys "").2.error =
      some (PyExc.retryError (PyExc.apiError true)) ∧
    (perform_incremental_sync c1Api c8Pipeline c1Sys "").1.index = emptyIndex ∧
    (perform_initial_sync c1Api c8Pipeline c1Sys "").1.index ≠ emptyIndex ∧
    (perform_incremental_sync c1Api c8Pipeline c1Sys "").1.index ≠
      (perform_initial_sync c1Api c8Pipeline c1Sys "").1.index := by
  refine ⟨?_, by decide, by decide, by decide, by decide⟩
  intro api cursors path e h
  unfold list_folder_changes at h
  cases hl : cursors.lookup (cursorKey path) with
  | none =>
      rw [hl] at h
      simp at h
  | some cursor =>
      rw [hl] at h
      dsimp only at h
      cases hc : api.continueResult cursor with
      | ok pr =>
          rw [hc] at h
          simp [retryCall] at h
      | error x =>
          rw [hc] at h
          simp only [retryCall] at h
          cases x with
          | apiError r =>
              refine ⟨PyExc.apiError r, ?_⟩
              simp at h
              exact h.symm
          | retryError y =>
              refine ⟨PyExc.retryError y, ?_⟩
              simp at h
              exact h.symm


/-! ### `AtomicDocumentAgent` — LIST_ALL path
(`src/agents/obsidian/atomic_document_agent.py`)

The `Company` collection of the structured knowledge base is a list of
records; `fetch_objects(limit=...)` returns at most `limit` records in
enumeration order.  The query classification and service-term extraction are
LLM calls (collaborator boundary); the model covers `search` from the point
where the query is classified LIST_ALL with a truthy extracted service term.
Python `list(set(search_terms))` has unspecified order; the model
deduplicates keeping first occurrence — no claim depends on term order. -/

/-- A company record (fields the LIST_ALL path reads). -/
structure Company where
  company : String := ""
  services : List String := []
  office_phone : String := ""
  mobile_phone : String := ""
  email : List String := []
  phone_e164 : String := ""
  email_lower : List String := []
  entity_uid : String := ""
  hired : Bool := false
deriving DecidableEq, Repr

/-- A result dictionary of `search_companies_with_filter` (these carry no
`score` key, modelled as `score = none`). -/
structure CompanyResult where
  company : String := ""
  services : List String := []
  phone : String := ""
  phone_e164 : String := ""
  email : List String := []
  email_lower : List String := []
  entity_uid : String := ""
  hired : Bool := false
  score : Option ℚ := none
deriving DecidableEq, Repr

/-- The result dictionary built for a matching company. -/
def mkCompanyResult (obj : Company) : CompanyResult :=
  { company := obj.company
    services := obj.services
    phone := if obj.office_phone = "" then obj.mobile_phone else obj.office_phone
    phone_e164 := obj.phone_e164
    email := obj.email
    email_lower := obj.email_lower
    entity_uid := obj.entity_uid
    hired := obj.hired }

/-- The learned synonym variations of `search_companies_with_filter`. -/
def search_variations (service : String) : List String :=
  let low := String.mk (pyLower service.toList)
  let extra :=
    if low = "electrical" ∨ low = "electric" then
      ["electrical", "electric", "electrician"]
    else if low = "concrete" ∨ low = "foundation" then
      ["concrete", "foundation", "concrete & foundation"]
    else if low = "glass" ∨ low = "windows" ∨ low = "glazing" then
      ["glass", "windows", "glazing", "windows labor", "mirrors"]
    else if low = "roofing" ∨ low = "roof" then
      ["roofing", "roof", "roof labor", "roof material"]
    else []
  firstDedup (low :: extra)

/-- One term of the scan loop: fetch at most `limit` companies, keep each
whose services contain the term case-insensitively and whose name is
unseen. -/
def filter_scan_term (col : List Company) (limit : Nat) (term : String)
    (acc : List String × List CompanyResult) : List String × List CompanyResult :=
  (col.take limit).foldl (fun acc2 obj =>
    if obj.services.any (fun svc => containsSub (pyLower term.toList) (pyLower svc.toList)) ∧
        obj.company ∉ acc2.1 then
      (obj.company :: acc2.1, acc2.2 ++ [mkCompanyResult obj])
    else acc2) acc

/-- Hired-first comparator (`sort(key=lambda x: x.get("hired", False),
reverse=True)`). -/
def hiredGe (a b : CompanyResult) : Bool := !b.hired || a.hired

/-- `AtomicDocumentAgent.search_companies_with_filter(service, limit=1000)`. -/
def search_companies_with_filter (col : List Company) (service : String) (limit : Nat) :
    List CompanyResult :=
  sortDesc hiredGe
    ((search_variations service).foldl (fun acc t => filter_scan_term col limit t acc)
      ([], [])).2

/-- `keyword` removal of the LIST_ALL retry:
`service.lower().replace(word, '').strip()`. -/
def pyReplaceEmpty (sub : List Char) : List Char → List Char
  | [] => []
  | c :: rest =>
      if h : sub ≠ [] ∧ sub.isPrefixOf (c :: rest) then
        pyReplaceEmpty sub ((c :: rest).drop sub.length)
      else c :: pyReplaceEmpty sub rest
termination_by l => l.length
decreasing_by
  · simp only [List.length_drop, List.length_cons]
    have hlen : 1 ≤ sub.length := by
      cases sub with
      | nil => exact absurd rfl h.1
      | cons a as => simp
    omega
  · simp

def cleaned_term (service : String) (word : String) : String :=
  String.mk (pyStrip (pyReplaceEmpty word.toList (pyLower service.toList)))

/-- `AtomicDocumentAgent.filter_by_score_threshold`: a no-op when the first
result has no score. -/
def filter_by_score_threshold (results : List CompanyResult) (minScore : ℚ) :
    List CompanyResult :=
  match results with
  | [] => results
  | r :: _ =>
      if r.score = none then results
      else results.filter (fun x => decide (minScore ≤ x.score.getD 0))

/-- `AtomicDocumentAgent.search` from the LIST_ALL classification with a
truthy service term through stage 3: the deterministic scan, the
empty-result retry with a cleaned term, then validation — reranking is
guarded on `query_type != QueryType.LIST_ALL`, the score filter is a no-op
on scoreless results, and the `max_results` limit is likewise guarded on
`query_type != QueryType.LIST_ALL`.  `voyage` abstracts whether a reranker
client is configured.  The empty-result terminal message is modelled as the
empty list. -/
def searchListAll (col : List Company) (voyage : Bool) (minScore : ℚ)
    (maxResults : Option Nat) (service : String) : List CompanyResult :=
  let results := search_companies_with_filter col service 1000
  let results :=
    if results = [] then
      if containsSub "supplier".toList (pyLower service.toList) then
        search_companies_with_filter col (cleaned_term service "supplier") 1000
      else if containsSub "contractor".toList (pyLower service.toList) then
        search_companies_with_filter col (cleaned_term service "contractor") 1000
      else results
    else results
  if results = [] then []
  else
    let results := if 0 < minScore then filter_by_score_threshold results minScore else results
    results


/-- Invariant of the scan accumulator: every collected result stems from the
fetched prefix and carries no score; the seen-set is exactly the set of
collected names; collected names are distinct. -/
def scanInv (col : List Company) (limit : Nat) (acc : List String × List CompanyResult) :
    Prop :=
  (∀ r ∈ acc.2, (∃ obj ∈ col.take limit, r.company = obj.company) ∧ r.score = none) ∧
  (∀ n, n ∈ acc.1 ↔ ∃ r ∈ acc.2, r.company = n) ∧
  (acc.2.map (fun r => r.company)).Nodup

theorem scanInv_nil (col : List Company) (limit : Nat) : scanInv col limit ([], []) := by
  refine ⟨?_, ?_, ?_⟩ <;> simp

theorem scan_step_inv (col : List Company) (limit : Nat) (term : String) (o : Company)
    (ho : o ∈ col.take limit) (acc : List String × List CompanyResult)
    (hinv : scanInv col limit acc) :
    scanInv col limit (if o.services.any (fun svc =>
        containsSub (pyLower term.toList) (pyLower svc.toList)) ∧ o.company ∉ acc.1 then
      (o.company :: acc.1, acc.2 ++ [mkCompanyResult o])
    else acc) := by
  by_cases hcond : o.services.any (fun svc =>
      containsSub (pyLower term.toList) (pyLower svc.toList)) ∧ o.company ∉ acc.1
  · rw [if_pos hcond]
    obtain ⟨h1, h2, h3⟩ := hinv
    refine ⟨?_, ?_, ?_⟩
    · intro r hr
      rcases List.mem_append.mp hr with hr2 | hr2
      · exact h1 r hr2
      · rcases List.mem_singleton.mp hr2 with rfl
        exact ⟨⟨o, ho, rfl⟩, rfl⟩
    · intro n
      constructor
      · intro hn
        rcases List.mem_cons.mp hn with rfl | hn2
        · exact ⟨mkCompanyResult o, List.mem_append_right _ (List.mem_singleton_self _), rfl⟩
        · obtain ⟨r, hr, hrc⟩ := (h2 n).mp hn2
          exact ⟨r, List.mem_append_left _ hr, hrc⟩
      · rintro ⟨r, hr, hrc⟩
        rcases List.mem_append.mp hr with hr2 | hr2
        · exact List.mem_cons_of_mem _ ((h2 n).mpr ⟨r, hr2, hrc⟩)
        · rcases List.mem_singleton.mp hr2 with rfl
          rw [← hrc]
          exact List.mem_cons_self _ _
    · rw [List.map_append]
      simp only [List.map_cons, List.map_nil]
      rw [List.nodup_append]
      refine ⟨h3, List.nodup_singleton _, ?_⟩
      intro n hn hn2
      rcases List.mem_singleton.mp hn2 with rfl
      obtain ⟨r, hr, hrc⟩ := List.mem_map.mp hn
      exact hcond.2 ((h2 (mkCompanyResult o).company).mpr ⟨r, hr, hrc⟩)
  · rw [if_neg hcond]
    exact hinv

theorem scan_fold_inv (col : List Company) (limit : Nat) (term : String) :
    ∀ (l : List Company), (∀ o ∈ l, o ∈ col.take limit) →
    ∀ acc, scanInv col limit acc →
      scanInv col limit (l.foldl (fun acc2 obj =>
        if obj.services.any (fun svc =>
            containsSub (pyLower term.toList) (pyLower svc.toList)) ∧
            obj.company ∉ acc2.1 then
          (obj.company :: acc2.1, acc2.2 ++ [mkCompanyResult obj])
        else acc2) acc) := by
  intro l
  induction l with
  | nil => intro _ acc h; exact h
  | cons o os ih =>
      intro hsub acc hinv
      rw [List.foldl_cons]
      exact ih (fun x hx => hsub x (List.mem_cons_of_mem _ hx)) _
        (scan_step_inv col limit term o (hsub o (List.mem_cons_self _ _)) acc hinv)

theorem scan_fold_mono (col : List Company) (limit : Nat) (term : String) :
    ∀ (l : List Company) acc (r : CompanyResult), r ∈ acc.2 →
      r ∈ (l.foldl (fun acc2 obj =>
        if obj.services.any (fun svc =>
            containsSub (pyLower term.toList) (pyLower svc.toList)) ∧
            obj.company ∉ acc2.1 then
          (obj.company :: acc2.1, acc2.2 ++ [mkCompanyResult obj])
        else acc2) acc).2 := by
  intro l
  induction l with
  | nil => intro acc r hr; exact hr
  | cons o os ih =>
      intro acc r hr
      rw [List.foldl_cons]
      apply ih
      by_cases hcond : o.services.any (fun svc =>
          containsSub (pyLower term.toList) (pyLower svc.toList)) ∧ o.company ∉ acc.1
      · rw [if_pos hcond]
        exact List.mem_append_left _ hr
      · rw [if_neg hcond]
        exact hr

theorem scan_fold_complete (col : List Company) (limit : Nat) (term : String)
    (c : Company)
    (hmatch : c.services.any (fun svc =>
      containsSub (pyLower term.toList) (pyLower svc.toList)) = true) :
    ∀ (l : List Company), c ∈ l → (∀ o ∈ l, o ∈ col.take limit) →
    ∀ acc, scanInv col limit acc →
      ∃ r ∈ (l.foldl (fun acc2 obj =>
        if obj.services.any (fun svc =>
            containsSub (pyLower term.toList) (pyLower svc.toList)) ∧
            obj.company ∉ acc2.1 then
          (obj.company :: acc2.1, acc2.2 ++ [mkCompanyResult obj])
        else acc2) acc).2, r.company = c.company := by
  intro l
  induction l with
  | nil => intro hc; simp at hc
  | cons o os ih =>
      intro hc hsub acc hinv
      rw [List.foldl_cons]
      rcases List.mem_cons.mp hc with rfl | hc2
      · by_cases hseen : c.company ∈ acc.1
        · obtain ⟨r, hr, hrc⟩ := (hinv.2.1 c.company).mp hseen
          refine ⟨r, scan_fold_mono col limit term os _ r ?_, hrc⟩
          rw [if_neg (fun h => h.2 hseen)]
          exact hr
        · refine ⟨mkCompanyResult c, scan_fold_mono col limit term os _ _ ?_, rfl⟩
          rw [if_pos ⟨hmatch, hseen⟩]
          exact List.mem_append_right _ (List.mem_singleton_self _)
      · exact ih hc2 (fun x hx => hsub x (List.mem_cons_of_mem _ hx)) _
          (scan_step_inv col limit term o (hsub o (List.mem_cons_self _ _)) acc hinv)

theorem terms_fold_inv (col : List Company) (limit : Nat) :
    ∀ (ts : List String) acc, scanInv col limit acc →
      scanInv col limit (ts.foldl (fun a t => filter_scan_term col limit t a) acc) := by
  intro ts
  induction ts with
  | nil => intro acc h; exact h
  | cons t ts2 ih =>
      intro acc hinv
      rw [List.foldl_cons]
      exact ih _ (scan_fold_inv col limit t (col.take limit) (fun _ hx => hx) acc hinv)

theorem terms_fold_mono (col : List Company) (limit : Nat) :
    ∀ (ts : List String) acc (r : CompanyResult), r ∈ acc.2 →
      r ∈ (ts.foldl (fun a t => filter_scan_term col limit t a) acc).2 := by
  intro ts
  induction ts with
  | nil => intro acc r hr; exact hr
  | cons t ts2 ih =>
      intro acc r hr
      rw [List.foldl_cons]
      exact ih _ r (scan_fold_mono col limit t (col.take limit) acc r hr)

theorem terms_fold_complete (col : List Company) (limit : Nat) (c : Company) (t : String)
    (hmatch : c.services.any (fun svc =>
      containsSub (pyLower t.toList) (pyLower svc.toList)) = true)
    (hc : c ∈ col.take limit) :
    ∀ (ts : List String), t ∈ ts → ∀ acc, scanInv col limit acc →
      ∃ r ∈ (ts.foldl (fun a t => filter_scan_term col limit t a) acc).2,
        r.company = c.company := by
  intro ts
  induction ts with
  | nil => intro ht; simp at ht
  | cons t2 ts2 ih =>
      intro ht acc hinv
      rw [List.foldl_cons]
      rcases List.mem_cons.mp ht with rfl | ht2
      · obtain ⟨r, hr, hrc⟩ := scan_fold_complete col limit t c hmatch (col.take limit)
          hc (fun _ hx => hx) acc hinv
        exact ⟨r, terms_fold_mono col limit ts2 _ r hr, hrc⟩
      · exact ih ht2 _ (scan_fold_inv col limit t2 (col.take limit) (fun _ hx => hx) acc hinv)

theorem hiredGe_total (a b : CompanyResult) (h : hiredGe a b = false) :
    hiredGe b a = true := by
  cases ha : a.hired <;> cases hb : b.hired <;> simp_all [hiredGe]

theorem hiredGe_trans (a b c : CompanyResult) (h1 : hiredGe a b = true)
    (h2 : hiredGe b c = true) : hiredGe a c = true := by
  cases ha : a.hired <;> cases hb : b.hired <;> cases hc : c.hired <;>
    simp_all [hiredGe]

theorem insertDesc_pairwise {α : Type} (ge : α → α → Bool)
    (htot : ∀ a b, ge a b = false → ge b a = true)
    (htrans : ∀ a b c, ge a b = true → ge b c = true → ge a c = true)
    (x : α) : ∀ (l : List α), l.Pairwise (fun a b => ge a b = true) →
    (insertDesc ge x l).Pairwise (fun a b => ge a b = true) := by
  intro l
  induction l with
  | nil =>
      intro _
      unfold insertDesc
      exact List.pairwise_singleton _ _
  | cons y ys ih =>
      intro hp
      obtain ⟨hy, hys⟩ := List.pairwise_cons.mp hp
      unfold insertDesc
      by_cases hge : ge x y = true
      · rw [if_pos hge]
        refine List.Pairwise.cons ?_ hp
        intro b hb
        rcases List.mem_cons.mp hb with rfl | hb2
        · exact hge
        · exact htrans x y b hge (hy b hb2)
      · rw [if_neg hge]
        refine List.Pairwise.cons ?_ (ih hys)
        intro b hb
        have hb3 : b ∈ x :: ys := ((insertDesc_perm ge x ys).mem_iff).mp hb
        rcases List.mem_cons.mp hb3 with rfl | hb4
        · exact htot _ y (Bool.eq_false_iff.mpr hge)
        · exact hy b hb4

theorem sortDesc_pairwise {α : Type} (ge : α → α → Bool)
    (htot : ∀ a b, ge a b = false → ge b a = true)
    (htrans : ∀ a b c, ge a b = true → ge b c = true → ge a c = true) :
    ∀ (l : List α), (sortDesc ge l).Pairwise (fun a b => ge a b = true) := by
  intro l
  induction l with
  | nil => unfold sortDesc; exact List.Pairwise.nil
  | cons x xs ih =>
      unfold sortDesc
      exact insertDesc_pairwise ge htot htrans x (sortDesc ge xs) ih

/-- Every result of `search_companies_with_filter` stems from the fetched
1000-record prefix and carries no score. -/
theorem scf_origin (col : List Company) (service : String) (r : CompanyResult)
    (hr : r ∈ search_companies_with_filter col service 1000) :
    (∃ obj ∈ col.take 1000, r.company = obj.company) ∧ r.score = none := by
  unfold search_companies_with_filter at hr
  have hr2 := ((sortDesc_perm hiredGe _).mem_iff).mp hr
  exact (terms_fold_inv col 1000 (search_variations service) ([], []) (scanInv_nil _ _)).1
    r hr2

/-- The collected company names of `search_companies_with_filter` are
pairwise distinct. -/
theorem scf_nodup (col : List Company) (service : String) :
    ((search_companies_with_filter col service 1000).map
      (fun r => r.company)).Nodup := by
  unfold search_companies_with_filter
  have hperm := (sortDesc_perm hiredGe
    ((search_variations service).foldl
      (fun acc t => filter_scan_term col 1000 t acc) ([], [])).2).map
    (fun r => r.company)
  exact hperm.nodup_iff.mpr
    (terms_fold_inv col 1000 (search_variations service) ([], [])
      (scanInv_nil _ _)).2.2

/-- Completeness over the fetched prefix: a company within the first 1000
records whose services match a variation of the term appears in the scan
output. -/
theorem scf_complete (col : List Company) (service : String) (c : Company)
    (t : String) (ht : t ∈ search_variations service) (hc : c ∈ col.take 1000)
    (hmatch : c.services.any (fun svc =>
      containsSub (pyLower t.toList) (pyLower svc.toList)) = true) :
    ∃ r ∈ search_companies_with_filter col service 1000,
      r.company = c.company := by
  unfold search_companies_with_filter
  obtain ⟨r, hr, hrc⟩ := terms_fold_complete col 1000 c t hmatch hc
    (search_variations service) ht ([], []) (scanInv_nil _ _)
  exact ⟨r, ((sortDesc_perm hiredGe _).mem_iff).mpr hr, hrc⟩

/-- The LIST_ALL score filter never adds results. -/
theorem filter_by_score_sub (results : List CompanyResult) (minScore : ℚ)
    (r : CompanyResult) (hr : r ∈ filter_by_score_threshold results minScore) :
    r ∈ results := by
  unfold filter_by_score_threshold at hr
  cases results with
  | nil => exact hr
  | cons a rest =>
      dsimp only at hr
      by_cases hs : a.score = none
      · rw [if_pos hs] at hr
        exact hr
      · rw [if_neg hs] at hr
        exact (List.mem_filter.mp hr).1

/-- On scoreless results the LIST_ALL score filter is the identity. -/
theorem filter_by_score_noop (results : List CompanyResult) (minScore : ℚ)
    (hs : ∀ r ∈ results, r.score = none) :
    filter_by_score_threshold results minScore = results := by
  unfold filter_by_score_threshold
  cases results with
  | nil => rfl
  | cons a rest =>
      dsimp only
      rw [if_pos (hs a (List.mem_cons_self _ _))]

/-- Every result the LIST_ALL path returns comes from one of the
deterministic scans (the original term or a cleaned retry term). -/
theorem searchListAll_mem_scf (col : List Company) (voyage : Bool) (minScore : ℚ)
    (maxResults : Option Nat) (service : String) (r : CompanyResult)
    (hr : r ∈ searchListAll col voyage minScore maxResults service) :
    ∃ t, r ∈ search_companies_with_filter col t 1000 := by
  simp only [searchListAll] at hr
  by_cases h1 : search_companies_with_filter col service 1000 = []
  · rw [h1] at hr
    rw [if_pos rfl] at hr
    by_cases h2 : containsSub "supplier".toList (pyLower service.toList)
    · rw [if_pos h2] at hr
      by_cases h3 : search_companies_with_filter col
          (cleaned_term service "supplier") 1000 = []
      · rw [if_pos h3] at hr
        exact absurd hr (List.not_mem_nil r)
      · rw [if_neg h3] at hr
        by_cases h4 : 0 < minScore
        · rw [if_pos h4] at hr
          exact ⟨cleaned_term service "supplier", filter_by_score_sub _ _ _ hr⟩
        · rw [if_neg h4] at hr
          exact ⟨cleaned_term service "supplier", hr⟩
    · rw [if_neg h2] at hr
      by_cases h5 : containsSub "contractor".toList (pyLower service.toList)
      · rw [if_pos h5] at hr
        by_cases h6 : search_companies_with_filter col
            (cleaned_term service "contractor") 1000 = []
        · rw [if_pos h6] at hr
          exact absurd hr (List.not_mem_nil r)
        · rw [if_neg h6] at hr
          by_cases h7 : 0 < minScore
          · rw [if_pos h7] at hr
            exact ⟨cleaned_term service "contractor", filter_by_score_sub _ _ _ hr⟩
          · rw [if_neg h7] at hr
            exact ⟨cleaned_term service "contractor", hr⟩
      · rw [if_neg h5] at hr
        rw [if_pos rfl] at hr
        exact absurd hr (List.not_mem_nil r)
  · rw [if_neg h1, if_neg h1] at hr
    by_cases h2 : 0 < minScore
    · rw [if_pos h2] at hr
      exact ⟨service, filter_by_score_sub _ _ _ hr⟩
    · rw [if_neg h2] at hr
      exact ⟨service, hr⟩

/-- When the first scan is nonempty, the LIST_ALL path returns it verbatim:
no retry, no score filtering (results are scoreless), no reranking, no
result-count truncation. -/
theorem searchListAll_eq_scf (col : List Company) (voyage : Bool) (minScore : ℚ)
    (maxResults : Option Nat) (service : String)
    (hne : search_companies_with_filter col service 1000 ≠ []) :
    searchListAll col voyage minScore maxResults service =
      search_companies_with_filter col service 1000 := by
  simp only [searchListAll]
  rw [if_neg hne, if_neg hne]
  by_cases h2 : 0 < minScore
  · rw [if_pos h2]
    exact filter_by_score_noop _ _ (fun r hr => (scf_origin col service r hr).2)
  · rw [if_neg h2]

/-- C4 (amended): for a LIST_ALL query with a truthy extracted service term,
every company among the first 1000 fetched records whose services array
matches the term or one of its synonym variations by case-insensitive
substring yields a result; result company names are deduplicated, hired
companies come first (the list is sorted hired-first), and the returned
list is exactly the deterministic scan output — never reranked, never
score-filtered, and never truncated by a result-count limit. -/
theorem C4_list_all_amended (col : List Company) (voyage : Bool) (minScore : ℚ)
    (maxResults : Option Nat) (service : String) (c : Company) (t : String)
    (ht : t ∈ search_variations service) (hc : c ∈ col.take 1000)
    (hmatch : c.services.any (fun svc =>
      containsSub (pyLower t.toList) (pyLower svc.toList)) = true) :
    (∃ r ∈ searchListAll col voyage minScore maxResults service,
        r.company = c.company) ∧
    ((searchListAll col voyage minScore maxResults service).map
        (fun r => r.company)).Nodup ∧
    (searchListAll col voyage minScore maxResults service).Pairwise
        (fun a b => hiredGe a b = true) ∧
    searchListAll col voyage minScore maxResults service =
      search_companies_with_filter col service 1000 := by
  obtain ⟨r, hr, hrc⟩ := scf_complete col service c t ht hc hmatch
  have hne : search_companies_with_filter col service 1000 ≠ [] := by
    intro h
    rw [h] at hr
    exact List.not_mem_nil r hr
  have heq := searchListAll_eq_scf col voyage minScore maxResults service hne
  refine ⟨⟨r, ?_, hrc⟩, ?_, ?_, heq⟩
  · rw [heq]
    exact hr
  · rw [heq]
    exact scf_nodup col service
  · rw [heq]
    unfold search_companies_with_filter
    exact sortDesc_pairwise hiredGe hiredGe_total hiredGe_trans _

def c4Small : List Company :=
  [{ company := "Acme Door", services := ["Doors", "Trim"], hired := false },
   { company := "Best Door", services := ["door install"], hired := true }]

def c4Victim : Company :=
  { company := "Best Door", services := ["door install"], hired := true }

theorem C4_witness :
    ("door" ∈ search_variations "door" ∧ c4Victim ∈ c4Small.take 1000 ∧
      c4Victim.services.any (fun svc =>
        containsSub (pyLower ("door" : String).toList) (pyLower svc.toList)) = true) ∧
    ((∃ r ∈ searchListAll c4Small true 0 none "door",
        r.company = c4Victim.company) ∧
      ((searchListAll c4Small true 0 none "door").map (fun r => r.company)).Nodup ∧
      (searchListAll c4Small true 0 none "door").Pairwise
        (fun a b => hiredGe a b = true) ∧
      searchListAll c4Small true 0 none "door" =
        search_companies_with_filter c4Small "door" 1000) :=
  ⟨⟨by decide, by decide, by decide⟩,
    C4_list_all_amended c4Small true 0 none "door" c4Victim "door"
      (by decide) (by decide) (by decide)⟩

/-- 1001 companies with pairwise-distinct names, each offering the service
"door". -/
def c4Big : List Company :=
  (List.range 1001).map (fun i =>
    { company := String.mk (List.replicate i (Char.ofNat 97)),
      services := ["door"] })

/-- C4 counterexample to the unamended claim: the scan fetches the company
collection with `limit=1000`, so a matching company outside the first 1000
records is never returned.  With 1001 companies all offering "door", the
1001st (name of 1000 letters a) matches the service term itself yet no
returned result carries its name. -/
theorem C4_counterexample :
    ∃ (col : List Company) (service : String) (c : Company),
      c ∈ col ∧
      c.services.any (fun svc =>
        containsSub (pyLower service.toList) (pyLower svc.toList)) = true ∧
      String.mk (pyLower service.toList) ∈ search_variations service ∧
      ∀ r ∈ searchListAll col true 0 none service, r.company ≠ c.company := by
  refine ⟨c4Big, "door",
    { company := String.mk (List.replicate 1000 (Char.ofNat 97)),
      services := ["door"] }, ?_, by decide, by decide, ?_⟩
  · exact List.mem_map.mpr ⟨1000, List.mem_range.mpr (by norm_num), rfl⟩
  · intro r hr hrc
    obtain ⟨t, hmem⟩ := searchListAll_mem_scf c4Big true 0 none "door" r hr
    obtain ⟨⟨obj, hobj, hoc⟩, -⟩ := scf_origin c4Big t r hmem
    have htake : c4Big.take 1000 = (List.range 1000).map (fun i =>
        ({ company := String.mk (List.replicate i (Char.ofNat 97)),
           services := ["door"] } : Company)) := by
      unfold c4Big
      rw [← List.map_take, List.take_range]
      norm_num
    rw [htake] at hobj
    obtain ⟨i, hi, rfl⟩ := List.mem_map.mp hobj
    have hi2 : i < 1000 := List.mem_range.mp hi
    have hstr : String.mk (List.replicate i (Char.ofNat 97)) =
        String.mk (List.replicate 1000 (Char.ofNat 97)) := by
      have h6 := hoc.symm.trans hrc
      exact h6
    have hlen := congrArg List.length (congrArg String.data hstr)
    simp at hlen
    omega

end North
